import Mathlib

/-!
# Verification of `src/sqrtprice.py`

The script computes, from two token reserves and their decimal counts, the
fixed-point value `sqrtPriceX96`:

```
def calculate_sqrt_price(token0_reserve, token1_reserve, token0_decimals, token1_decimals):
    token0_amount = token0_reserve * (10 ** token0_decimals)
    token1_amount = token1_reserve * (10 ** token1_decimals)
    price_ratio = token1_amount / token0_amount
    sqrt_price = math.sqrt(price_ratio)
    sqrt_price_x96 = int(sqrt_price * (2 ** 96))
    return sqrt_price_x96
```

The reserves and decimals are arbitrary-precision nonnegative integers, so
`token0_amount` and `token1_amount` are exact.  The division
`token1_amount / token0_amount` is CPython's int/int true division: it
raises `ZeroDivisionError` when `token0_amount == 0`, raises
`OverflowError` when the correctly rounded quotient is at least `2^1024`,
and otherwise returns the binary64 double nearest to the exact quotient
(ties to even, with gradual underflow to subnormals and to `0.0`).
`math.sqrt` is the correctly rounded binary64 square root.  The final
`sqrt_price * (2 ** 96)` multiplies by an exactly representable power of
two, which is exact in binary64 for every value this pipeline can produce
(no overflow: `sqrt_price < 2^512`, so the product is `< 2^608`; no
rounding: the exponent of the float only increases by 96), and `int`
truncates toward zero, i.e. takes the floor of the nonnegative product.

The embedding below replays this computation exactly, over `ℕ`/`ℤ`/`ℚ`:
binary64 values are carried as mantissa/exponent pairs `(n, t)` denoting
`n * 2 ^ t`, and the two rounded operations (division, square root) are
implemented by explicit round-to-nearest-even integer arithmetic.
-/

set_option maxRecDepth 8000

/-- Result of calling the Python function: a returned `int`, or an uncaught
exception.  `zeroDivisionError` models `ZeroDivisionError` and
`overflowError` models `OverflowError`; both are subclasses of Python's
`ArithmeticError`. -/
inductive PyResult where
  | ok (value : ℤ) : PyResult
  | zeroDivisionError : PyResult
  | overflowError : PyResult
deriving DecidableEq, Repr

/-- Round `A / B` to the nearest integer, ties to even (meaningful for
`0 < B`). -/
def rnDiv (A B : ℕ) : ℕ :=
  let q := A / B
  let r := A % B
  if 2 * r < B then q
  else if B < 2 * r then q + 1
  else if q % 2 = 0 then q else q + 1

/-- Round `a / b` to the nearest integer multiple of `2 ^ t`, ties to even;
returns the integer multiplier. -/
def rnAtScale (a b : ℕ) (t : ℤ) : ℕ :=
  if 0 ≤ t then rnDiv a (b <<< t.toNat) else rnDiv (a <<< (-t).toNat) b

/-- `true` iff `2 ^ e ≤ a / b` (meaningful for `0 < b`), decided with
integer shifts only. -/
def ratLexp2 (a b : ℕ) (e : ℤ) : Bool :=
  if 0 ≤ e then decide (b <<< e.toNat ≤ a) else decide (b ≤ a <<< (-e).toNat)

/-- Fueled binary search on `ℤ`: starting from `lo < hi` with
`hi - lo ≤ 2 ^ fuel`, returns `r` with `lo ≤ r < hi` such that `p r` holds
(unless `r = lo`) and `p (r + 1)` fails (unless `r + 1 = hi`).  Only
kernel-friendly integer operations are used, so applications to literals
evaluate by `decide`. -/
def bisect (p : ℤ → Bool) : ℕ → ℤ → ℤ → ℤ
  | 0, lo, _ => lo
  | fuel + 1, lo, hi =>
    if hi - lo ≤ 1 then lo
    else
      let m := Int.fdiv (lo + hi) 2
      if p m then bisect p fuel m hi else bisect p fuel lo m

/-- `⌊log₂ (a / b)⌋`, clamped to `[-1075, 1024]`.  The clamp is invisible
to the pipeline: below `2 ^ (-1075)` the rounding grid is `2 ^ (-1074)`
anyway, and at or above `2 ^ 1024` the overflow guard fires. -/
def fexp (a b : ℕ) : ℤ := bisect (ratLexp2 a b) 12 (-1075) 1025

/-- Integer square root by bounded bisection: equals `⌊√A⌋` for every
`A ≤ 2 ^ 1100`, far beyond the radicands this pipeline produces. -/
def isqrtN (A : ℕ) : ℕ :=
  (bisect (fun k => decide (k * k ≤ (A : ℤ))) 601 0 (1 <<< 600)).toNat

/-- The binary64 double nearest to `a / b` (round to nearest, ties to
even), as a mantissa/exponent pair `(n, t)` denoting `n * 2 ^ t`.  The
rounding grid of the subnormal range (spacing `2 ^ (-1074)`) is used below
`2 ^ (-1022)`, which gives gradual underflow and rounding to `0.0` exactly
as in IEEE 754.  A result value `≥ 2^1024` stands for an IEEE overflow;
the caller rejects it (CPython raises `OverflowError` there).  This models
CPython's correctly rounded int/int true division. -/
def roundFloat (a b : ℕ) : ℕ × ℤ :=
  if a = 0 then (0, 0)
  else
    let e := fexp a b
    let t := max (e - 52) (-1074)
    (rnAtScale a b t, t)

/-- Correctly rounded binary64 square root of the nonnegative finite float
`x = x.1 * 2 ^ x.2`: models the C `sqrt` called by Python's `math.sqrt`.
The mantissa is found by rounding `√A` to the nearest integer (ties to
even), where `A = x.1 * 2 ^ (x.2 - 2t)` rescales the radicand to the
target exponent `t`; the comparison of `√A` with a half-integer is decided
exactly on integers by squaring. -/
def fsqrt (x : ℕ × ℤ) : ℕ × ℤ :=
  if x.1 = 0 then (0, 0)
  else
    let e := fexp x.1 1 + x.2
    let t := max (Int.fdiv e 2 - 52) (-1074)
    let A := x.1 <<< (x.2 - 2 * t).toNat
    let f := isqrtN A
    let n :=
      if 4 * A < (2 * f + 1) ^ 2 then f
      else if (2 * f + 1) ^ 2 < 4 * A then f + 1
      else if f % 2 = 0 then f else f + 1
    (n, t)

/-- `int(s * (2 ** 96))` on the nonnegative float `s = s.1 * 2 ^ s.2`: the
multiplication by `2 ** 96` is exact in binary64 here (see the header),
and `int` truncates toward zero, which is the floor of the nonnegative
product `s.1 * 2 ^ (s.2 + 96)`. -/
def floorX96 (s : ℕ × ℤ) : ℤ :=
  if 0 ≤ s.2 + 96 then ((s.1 <<< (s.2 + 96).toNat : ℕ) : ℤ)
  else ((s.1 >>> (-(s.2 + 96)).toNat : ℕ) : ℤ)

/-- Shallow embedding of `calculate_sqrt_price` from `src/sqrtprice.py`,
line by line: the two amounts, the float division (with its two Python
failure modes), the float square root, and the scaled truncation.  The
overflow test compares the rounded quotient `n * 2 ^ t` with `2 ^ 1024`,
written as `1 <<< (1024 - t) ≤ n`. -/
def calculate_sqrt_price
    (token0_reserve token1_reserve token0_decimals token1_decimals : ℕ) :
    PyResult :=
  let token0_amount := token0_reserve * 10 ^ token0_decimals
  let token1_amount := token1_reserve * 10 ^ token1_decimals
  if token0_amount = 0 then .zeroDivisionError
  else
    let price_ratio := roundFloat token1_amount token0_amount
    if 1 <<< (1024 - price_ratio.2).toNat ≤ price_ratio.1 then .overflowError
    else
      let sqrt_price := fsqrt price_ratio
      .ok (floorX96 sqrt_price)

/-- Rational value of a mantissa/exponent pair. -/
def fval (x : ℕ × ℤ) : ℚ := (x.1 : ℚ) * 2 ^ x.2

/-- The nonnegative finite binary64 numbers, as rationals (the script only
ever produces nonnegative floats). -/
def FiniteDouble (x : ℚ) : Prop :=
  ∃ m : ℕ, ∃ e : ℤ, m < 2 ^ 53 ∧ -1074 ≤ e ∧ e ≤ 971 ∧ x = (m : ℚ) * 2 ^ e

/-- `x` is a nearest (nonnegative) finite binary64 number to the real
`t`. -/
def NearestDouble (t : ℝ) (x : ℚ) : Prop :=
  FiniteDouble x ∧ ∀ y : ℚ, FiniteDouble y → |t - (x : ℝ)| ≤ |t - (y : ℝ)|

/-! ### Basic facts about the search and rounding primitives -/

theorem bisect_spec (p : ℤ → Bool) (fuel : ℕ) :
    ∀ lo hi : ℤ, lo < hi → hi - lo ≤ 2 ^ fuel →
      lo ≤ bisect p fuel lo hi ∧ bisect p fuel lo hi < hi ∧
        (p (bisect p fuel lo hi) = true ∨ bisect p fuel lo hi = lo) ∧
        (p (bisect p fuel lo hi + 1) = false ∨ bisect p fuel lo hi + 1 = hi) := by
  induction fuel with
  | zero =>
    intro lo hi h1 h2
    simp only [bisect]
    exact ⟨le_refl _, h1, Or.inr (by trivial), Or.inr (by omega)⟩
  | succ fuel ih =>
    intro lo hi h1 h2
    simp only [bisect]
    by_cases hsmall : hi - lo ≤ 1
    · rw [if_pos hsmall]
      exact ⟨le_refl _, h1, Or.inr (by trivial), Or.inr (by omega)⟩
    · rw [if_neg hsmall]
      have hfd : Int.fdiv (lo + hi) 2 = (lo + hi) / 2 :=
        Int.fdiv_eq_ediv _ (by norm_num)
      have hpow : (2:ℤ) ^ (fuel + 1) = 2 * 2 ^ fuel := by ring
      have hpos : (0:ℤ) < 2 ^ fuel := by positivity
      simp only [hfd]
      set m := (lo + hi) / 2 with hm
      have hm1 : lo < m := by omega
      have hm2 : m < hi := by omega
      by_cases hpm : p m = true
      · rw [if_pos hpm]
        have h := ih m hi hm2 (by omega)
        refine ⟨by omega, h.2.1, ?_, h.2.2.2⟩
        rcases h.2.2.1 with h3 | h3
        · exact Or.inl h3
        · exact Or.inl (by rw [h3]; exact hpm)
      · rw [if_neg hpm]
        have h := ih lo m hm1 (by omega)
        refine ⟨h.1, by omega, h.2.2.1, ?_⟩
        rcases h.2.2.2 with h4 | h4
        · exact Or.inl h4
        · exact Or.inl (by rw [h4]; exact Bool.eq_false_iff.mpr hpm)

theorem ratLexp2_iff {a b : ℕ} (hb : 0 < b) (e : ℤ) :
    ratLexp2 a b e = true ↔ (2:ℚ) ^ e ≤ (a:ℚ) / b := by
  have hbq : (0:ℚ) < (b:ℚ) := by exact_mod_cast hb
  unfold ratLexp2
  by_cases he : 0 ≤ e
  · rw [if_pos he, decide_eq_true_iff, Nat.shiftLeft_eq,
      le_div_iff₀ hbq]
    have h2 : (2:ℚ) ^ e = ((2:ℚ) ^ e.toNat : ℚ) := by
      rw [← zpow_natCast]
      congr 1
      omega
    rw [h2, mul_comm]
    exact_mod_cast Iff.rfl
  · rw [if_neg he, decide_eq_true_iff, Nat.shiftLeft_eq,
      le_div_iff₀ hbq]
    have h2 : (2:ℚ) ^ e * b = (b:ℚ) / ((2:ℚ) ^ (-e).toNat : ℚ) := by
      rw [← zpow_natCast]
      have h3 : (((-e).toNat : ℕ) : ℤ) = -e := by omega
      rw [h3, zpow_neg]
      field_simp
      ring
    rw [h2, div_le_iff₀ (by positivity)]
    exact_mod_cast Iff.rfl

theorem fexp_range (a b : ℕ) : -1075 ≤ fexp a b ∧ fexp a b ≤ 1024 := by
  have hdef : fexp a b = bisect (ratLexp2 a b) 12 (-1075) 1025 := rfl
  have h := bisect_spec (ratLexp2 a b) 12 (-1075) 1025 (by norm_num) (by norm_num)
  rw [hdef]
  exact ⟨h.1, by omega⟩

theorem fexp_lower {a b : ℕ} (hb : 0 < b)
    (hlo : (2:ℚ) ^ (-1075 : ℤ) ≤ (a:ℚ) / b) :
    (2:ℚ) ^ (fexp a b) ≤ (a:ℚ) / b := by
  have hdef : fexp a b = bisect (ratLexp2 a b) 12 (-1075) 1025 := rfl
  have h := bisect_spec (ratLexp2 a b) 12 (-1075) 1025 (by norm_num) (by norm_num)
  rcases h.2.2.1 with h3 | h3
  · exact (ratLexp2_iff hb _).mp (by rw [hdef]; exact h3)
  · rw [hdef, h3]
    exact hlo

theorem fexp_upper {a b : ℕ} (hb : 0 < b) :
    (a:ℚ) / b < (2:ℚ) ^ (fexp a b + 1) ∨ fexp a b = 1024 := by
  have hdef : fexp a b = bisect (ratLexp2 a b) 12 (-1075) 1025 := rfl
  have h := bisect_spec (ratLexp2 a b) 12 (-1075) 1025 (by norm_num) (by norm_num)
  rcases h.2.2.2 with h4 | h4
  · left
    refine lt_of_not_le fun hc => ?_
    have h5 := (ratLexp2_iff hb (fexp a b + 1)).mpr hc
    rw [hdef] at h5
    rw [h5] at h4
    simp at h4
  · right
    rw [hdef]
    omega

theorem rnDiv_bounds {A B : ℕ} (hB : 0 < B) :
    |(A:ℚ) / B - (rnDiv A B : ℚ)| ≤ 1 / 2 := by
  have hBq : (0:ℚ) < (B:ℚ) := by exact_mod_cast hB
  have hA : B * (A / B) + A % B = A := Nat.div_add_mod A B
  have hr : A % B < B := Nat.mod_lt _ hB
  have hAq : (A:ℚ) = (B:ℚ) * (A / B : ℕ) + (A % B : ℕ) := by exact_mod_cast hA.symm
  have key : (A:ℚ) / B = ((A / B : ℕ) : ℚ) + ((A % B : ℕ) : ℚ) / B := by
    rw [hAq]
    field_simp
    ring
  have hr0 : (0:ℚ) ≤ ((A % B : ℕ) : ℚ) / B := by positivity
  have hr1 : ((A % B : ℕ) : ℚ) / B < 1 := by
    rw [div_lt_one hBq]
    exact_mod_cast hr
  simp only [rnDiv]
  split_ifs with h1 h2 h3
  · have : ((A % B : ℕ) : ℚ) / B ≤ 1 / 2 := by
      rw [div_le_div_iff₀ hBq (by norm_num)]
      have : (2:ℚ) * (A % B : ℕ) ≤ (B:ℚ) := by exact_mod_cast h1.le
      linarith
    rw [key, abs_le]
    constructor <;> linarith
  · have : (1:ℚ) / 2 ≤ ((A % B : ℕ) : ℚ) / B := by
      rw [div_le_div_iff₀ (by norm_num) hBq]
      have : (B:ℚ) ≤ 2 * (A % B : ℕ) := by exact_mod_cast h2.le
      linarith
    rw [key, abs_le]
    push_cast
    constructor <;> linarith
  · have hhalf : ((A % B : ℕ) : ℚ) / B = 1 / 2 := by
      rw [div_eq_div_iff hBq.ne' (by norm_num : (2:ℚ) ≠ 0), one_mul]
      exact_mod_cast (by omega : (A % B) * 2 = B)
    rw [key, abs_le]
    constructor <;> linarith
  · have hhalf : ((A % B : ℕ) : ℚ) / B = 1 / 2 := by
      rw [div_eq_div_iff hBq.ne' (by norm_num : (2:ℚ) ≠ 0), one_mul]
      exact_mod_cast (by omega : (A % B) * 2 = B)
    rw [key, abs_le]
    push_cast
    constructor <;> linarith

theorem rnDiv_nearest {A B : ℕ} (hB : 0 < B) (k : ℕ) :
    |(A:ℚ) / B - (rnDiv A B : ℚ)| ≤ |(A:ℚ) / B - (k:ℚ)| := by
  by_cases hk : k = rnDiv A B
  · rw [hk]
  · have hne : (rnDiv A B : ℤ) - (k : ℤ) ≠ 0 := by
      have : rnDiv A B ≠ k := fun hc => hk hc.symm
      omega
    have h1 : (1:ℚ) ≤ |(rnDiv A B : ℚ) - (k:ℚ)| := by
      have h0 : (1:ℚ) ≤ ((|(rnDiv A B : ℤ) - (k:ℤ)| : ℤ) : ℚ) := by
        exact_mod_cast Int.one_le_abs hne
      push_cast at h0
      exact h0
    have h2 := rnDiv_bounds (A := A) hB
    have h3 : |(rnDiv A B : ℚ) - (k:ℚ)| ≤
        |(rnDiv A B : ℚ) - (A:ℚ) / B| + |(A:ℚ) / B - (k:ℚ)| := abs_sub_le _ _ _
    have h4 : |(rnDiv A B : ℚ) - (A:ℚ) / B| = |(A:ℚ) / B - (rnDiv A B : ℚ)| :=
      abs_sub_comm _ _
    linarith

theorem rnDiv_tie {A B k : ℕ} (hB : 0 < B) (h : 2 * A = (2 * k + 1) * B) :
    rnDiv A B = if k % 2 = 0 then k else k + 1 := by
  have hBeven : B % 2 = 0 := by
    have h0 : (2 * k + 1) * B % 2 = 0 := by rw [← h]; omega
    rw [Nat.mul_mod] at h0
    have hk2 : (2 * k + 1) % 2 = 1 := by omega
    rw [hk2, one_mul] at h0
    omega
  obtain ⟨c, hc⟩ : ∃ c, B = 2 * c := ⟨B / 2, by omega⟩
  have hc0 : 0 < c := by omega
  have hAeq : A = k * B + c := by
    have h2 : 2 * A = 2 * (k * B + c) := by
      rw [h, hc]
      ring
    exact Nat.eq_of_mul_eq_mul_left (by norm_num) h2
  have hdiv : A / B = k := by
    rw [hAeq, Nat.mul_comm k B, Nat.mul_add_div hB, Nat.div_eq_of_lt (by omega),
      Nat.add_zero]
  have hmod : A % B = c := by
    rw [hAeq, Nat.mul_comm k B, Nat.mul_add_mod, Nat.mod_eq_of_lt (by omega)]
  simp only [rnDiv]
  rw [hdiv, hmod]
  rw [if_neg (by omega), if_neg (by omega)]

theorem rnAtScale_rnDiv (a b : ℕ) (t : ℤ) (hb : 0 < b) :
    ∃ A B : ℕ, rnAtScale a b t = rnDiv A B ∧ 0 < B ∧
      (A:ℚ) / B = (a:ℚ) / b / 2 ^ t := by
  by_cases ht : 0 ≤ t
  · refine ⟨a, b <<< t.toNat, by simp [rnAtScale, ht], ?_, ?_⟩
    · rw [Nat.shiftLeft_eq]
      positivity
    · rw [Nat.shiftLeft_eq]
      push_cast
      rw [div_div]
      congr 2
      rw [← zpow_natCast]
      congr 1
      omega
  · refine ⟨a <<< (-t).toNat, b, by simp [rnAtScale, ht], hb, ?_⟩
    rw [Nat.shiftLeft_eq]
    push_cast
    have h2 : (2:ℚ) ^ t = ((2:ℚ) ^ (-t).toNat)⁻¹ := by
      rw [← zpow_natCast]
      have h3 : (((-t).toNat : ℕ) : ℤ) = -t := by omega
      rw [h3, zpow_neg, inv_inv]
    rw [h2]
    have hbq : ((b:ℚ)) ≠ 0 := by positivity
    field_simp

theorem rnAtScale_half (a b : ℕ) (hb : 0 < b) (t : ℤ) :
    |(a:ℚ) / b - (rnAtScale a b t : ℚ) * 2 ^ t| ≤ 2 ^ t / 2 := by
  obtain ⟨A, B, hEq, hB, hAB⟩ := rnAtScale_rnDiv a b t hb
  have h1 := rnDiv_bounds (A := A) (B := B) hB
  rw [hAB] at h1
  rw [hEq]
  have hpow : (0:ℚ) < 2 ^ t := by positivity
  have key : (a:ℚ) / b - (rnDiv A B : ℚ) * 2 ^ t =
      ((a:ℚ) / b / 2 ^ t - rnDiv A B) * 2 ^ t := by
    field_simp
    ring
  rw [key, abs_mul, abs_of_pos hpow]
  calc |(a:ℚ) / b / 2 ^ t - (rnDiv A B : ℚ)| * 2 ^ t
      ≤ (1 / 2) * 2 ^ t := mul_le_mul_of_nonneg_right h1 hpow.le
    _ = 2 ^ t / 2 := by ring

theorem rnAtScale_nearest (a b : ℕ) (hb : 0 < b) (t : ℤ) (k : ℕ) :
    |(a:ℚ) / b - (rnAtScale a b t : ℚ) * 2 ^ t| ≤
      |(a:ℚ) / b - (k:ℚ) * 2 ^ t| := by
  obtain ⟨A, B, hEq, hB, hAB⟩ := rnAtScale_rnDiv a b t hb
  have h1 := rnDiv_nearest (A := A) (B := B) hB k
  rw [hAB] at h1
  rw [hEq]
  have hpow : (0:ℚ) < 2 ^ t := by positivity
  have key : ∀ y : ℚ, (a:ℚ) / b - y * 2 ^ t =
      ((a:ℚ) / b / 2 ^ t - y) * 2 ^ t := by
    intro y
    field_simp
    ring
  rw [key, key, abs_mul, abs_mul, abs_of_pos hpow]
  exact mul_le_mul_of_nonneg_right h1 hpow.le

theorem rnAtScale_ge_of_tie (a b K : ℕ) (hb : 0 < b) (t : ℤ) (hK : 1 ≤ K)
    (hKeven : K % 2 = 0)
    (hge : (K:ℚ) * 2 ^ t - 2 ^ t / 2 ≤ (a:ℚ) / b) :
    K ≤ rnAtScale a b t := by
  obtain ⟨A, B, hEq, hB, hAB⟩ := rnAtScale_rnDiv a b t hb
  rw [hEq]
  have hpow : (0:ℚ) < 2 ^ t := by positivity
  have hx : (K:ℚ) - 1 / 2 ≤ (A:ℚ) / B := by
    rw [hAB, le_div_iff₀ hpow]
    have expand : ((K:ℚ) - 1 / 2) * 2 ^ t = K * 2 ^ t - 2 ^ t / 2 := by ring
    rw [expand]
    exact hge
  rcases lt_or_eq_of_le hx with hlt | heq
  · have h1 := rnDiv_bounds (A := A) (B := B) hB
    have h2 := (abs_le.mp h1).2
    have h3 : (K:ℚ) < (rnDiv A B : ℚ) + 1 := by linarith
    have h4 : K < rnDiv A B + 1 := by exact_mod_cast h3
    omega
  · have hA : (A:ℚ) = ((K:ℚ) - 1 / 2) * B := by
      have hBq : ((B:ℚ)) ≠ 0 := by positivity
      field_simp at heq
      linarith
    have h2 : 2 * A = (2 * (K - 1) + 1) * B := by
      have hq : ((2 * A : ℕ) : ℚ) = ((2 * (K - 1) + 1 : ℕ) : ℚ) * B := by
        push_cast [Nat.cast_sub hK]
        linarith
      exact_mod_cast hq
    rw [rnDiv_tie hB h2]
    rw [if_neg (by omega)]
    omega

/-! ### Powers of two over `ℚ`: a small kit -/

theorem two_zpow_pos (u : ℤ) : (0:ℚ) < 2 ^ u := by positivity

theorem two_zpow_mono {u v : ℤ} (h : u ≤ v) : (2:ℚ) ^ u ≤ 2 ^ v :=
  zpow_le_zpow_right₀ (by norm_num) h

theorem two_zpow_strict {u v : ℤ} (h : u < v) : (2:ℚ) ^ u < 2 ^ v :=
  zpow_lt_zpow_right₀ (by norm_num) h

theorem two_zpow_add (u v : ℤ) : (2:ℚ) ^ (u + v) = 2 ^ u * 2 ^ v :=
  zpow_add₀ (by norm_num) u v

theorem two_zpow_half (u : ℤ) : (2:ℚ) ^ u / 2 = 2 ^ (u - 1) := by
  have h := two_zpow_add (u - 1) 1
  rw [sub_add_cancel] at h
  rw [h]
  norm_num

theorem cast_two_pow (k : ℕ) : ((2 ^ k : ℕ) : ℚ) = (2:ℚ) ^ (k : ℤ) := by
  push_cast
  rw [zpow_natCast]

theorem cast_two_pow' (k : ℕ) (u : ℤ) (h : (k : ℤ) = u) :
    ((2 ^ k : ℕ) : ℚ) = (2:ℚ) ^ u := by
  rw [cast_two_pow, h]

theorem nat_le_of_cast_lt {K n : ℕ} (h : (K:ℚ) - 1 < n) : K ≤ n := by
  have h1 : (K:ℚ) < (n:ℚ) + 1 := by linarith
  have h2 : K < n + 1 := by exact_mod_cast h1
  omega

/-! ### The overflow condition of the float division -/

theorem fexp_lower' {a b : ℕ} (hb : 0 < b) (hne : fexp a b ≠ -1075) :
    (2:ℚ) ^ (fexp a b) ≤ (a:ℚ) / b := by
  have hdef : fexp a b = bisect (ratLexp2 a b) 12 (-1075) 1025 := rfl
  have h := bisect_spec (ratLexp2 a b) 12 (-1075) 1025 (by norm_num) (by norm_num)
  rcases h.2.2.1 with h3 | h3
  · exact (ratLexp2_iff hb _).mp (by rw [hdef]; exact h3)
  · exact absurd (show fexp a b = -1075 by rw [hdef, h3]) hne

/-- The overflow guard of the embedded division fires exactly on the
rationals that IEEE 754 round-to-nearest-even sends to `+∞`: those at or
above `2^1024 - 2^970` (the midpoint between the largest finite double and
`2^1024`, which a tie sends up to the even mantissa). -/
theorem overflow_iff {a b : ℕ} (hb : 0 < b) :
    1 <<< (1024 - (roundFloat a b).2).toNat ≤ (roundFloat a b).1 ↔
      (2:ℚ) ^ (1024:ℤ) - 2 ^ (970:ℤ) ≤ (a:ℚ) / b := by
  by_cases ha : a = 0
  · subst ha
    have hrf : roundFloat 0 b = (0, 0) := by simp [roundFloat]
    rw [hrf]
    constructor
    · intro h
      exfalso
      have h0 := Nat.le_zero.mp h
      rw [Nat.shiftLeft_eq, one_mul] at h0
      exact absurd h0 (pow_ne_zero _ (by norm_num))
    · intro h
      exfalso
      have h0 : ((0:ℕ):ℚ) / b = 0 := by norm_num
      rw [h0] at h
      have := two_zpow_strict (show (970:ℤ) < 1024 by norm_num)
      linarith
  · have ha' : 0 < a := Nat.pos_of_ne_zero ha
    simp only [roundFloat, if_neg ha]
    have hrange := fexp_range a b
    set e := fexp a b with he
    set t := max (e - 52) (-1074) with ht
    set n := rnAtScale a b t with hn
    have ht1 : -1074 ≤ t := le_max_right _ _
    have ht2 : t ≤ 972 := max_le (by omega) (by norm_num)
    have htNat : (((1024 - t).toNat : ℕ) : ℤ) = 1024 - t := by omega
    have hq0 : (0:ℚ) < (a:ℚ) / b := by
      have : (0:ℚ) < (a:ℚ) := by exact_mod_cast ha'
      have : (0:ℚ) < (b:ℚ) := by exact_mod_cast hb
      positivity
    have hcast : ((2 ^ (1024 - t).toNat : ℕ) : ℚ) = (2:ℚ) ^ ((1024:ℤ) - t) := by
      rw [cast_two_pow, htNat]
    have hguard : (1 <<< (1024 - t).toNat ≤ n) ↔
        (2:ℚ) ^ ((1024:ℤ) - t) ≤ (n:ℚ) := by
      rw [Nat.shiftLeft_eq, one_mul, ← hcast]
      exact ⟨fun h => by exact_mod_cast h, fun h => by exact_mod_cast h⟩
    rw [hguard]
    have hhalf := rnAtScale_half a b hb t
    have habs := abs_le.mp hhalf
    have hpow_t : (2:ℚ) ^ t / 2 = 2 ^ (t - 1) := two_zpow_half t
    have hsplit : (2:ℚ) ^ ((1024:ℤ) - t) * 2 ^ t = 2 ^ (1024:ℤ) := by
      rw [← two_zpow_add]
      norm_num
    constructor
    · -- guard fires → the quotient is at or above the overflow threshold
      intro hg
      by_contra hc
      push_neg at hc
      have he1024 : e ≠ 1024 := by
        intro h1024
        have hlow := fexp_lower' hb (by rw [← he, h1024]; norm_num)
        rw [← he, h1024] at hlow
        have := two_zpow_pos 970
        linarith
      have ht971 : t ≤ 971 := by
        have : e ≤ 1023 := by omega
        exact max_le (by omega) (by norm_num)
      have hv1 : (2:ℚ) ^ (1024:ℤ) ≤ (n:ℚ) * 2 ^ t := by
        calc (2:ℚ) ^ (1024:ℤ) = 2 ^ ((1024:ℤ) - t) * 2 ^ t := hsplit.symm
          _ ≤ (n:ℚ) * 2 ^ t :=
            mul_le_mul_of_nonneg_right hg (two_zpow_pos t).le
      have hv2 : (n:ℚ) * 2 ^ t ≤ (a:ℚ) / b + 2 ^ (t - 1) := by
        have := habs.1
        linarith [hpow_t ▸ this]
      have hsm : (2:ℚ) ^ (t - 1) ≤ 2 ^ (970:ℤ) := two_zpow_mono (by omega)
      linarith
    · -- at or above the threshold → the guard fires
      intro hT
      by_cases he1024 : e = 1024
      · have ht972 : t = 972 := by rw [ht, he1024]; decide
        rw [show (1024:ℤ) - t = 52 by omega,
          ← cast_two_pow' 52 52 (by norm_num)]
        have hK : (2:ℚ) ^ (52:ℤ) - 1 < (n:ℚ) := by
          have hv : (a:ℚ) / b - 2 ^ (t - 1) ≤ (n:ℚ) * 2 ^ t := by
            have := habs.2
            linarith [hpow_t ▸ this]
          rw [ht972] at hv
          have h1 : ((2:ℚ) ^ (52:ℤ) - 1) * 2 ^ (972:ℤ) <
              (n:ℚ) * 2 ^ (972:ℤ) := by
            have e1 : (2:ℚ) ^ (52:ℤ) * 2 ^ (972:ℤ) = 2 ^ (1024:ℤ) := by
              rw [← two_zpow_add]
              norm_num
            have e2 : (2:ℚ) ^ (971:ℤ) = 2 * 2 ^ (970:ℤ) := by
              rw [show (971:ℤ) = 1 + 970 by norm_num, two_zpow_add]
              norm_num
            have e3 : (2:ℚ) ^ (972:ℤ) = 2 * 2 ^ (971:ℤ) := by
              rw [show (972:ℤ) = 1 + 971 by norm_num, two_zpow_add]
              norm_num
            nlinarith [hv, hT]
          exact lt_of_mul_lt_mul_right h1 (two_zpow_pos 972).le
        have hKn : 2 ^ 52 ≤ n := nat_le_of_cast_lt
          (by rw [cast_two_pow' 52 52 (by norm_num)]; exact hK)
        exact_mod_cast hKn
      · have hup : (a:ℚ) / b < 2 ^ (e + 1) := by
          have h := fexp_upper (a := a) hb
          rw [← he] at h
          exact h.resolve_right he1024
        have he1023 : e = 1023 := by
          by_contra hne
          have hle : e + 1 ≤ 1023 := by omega
          have h1 : (a:ℚ) / b < 2 ^ (1023:ℤ) :=
            lt_of_lt_of_le hup (two_zpow_mono (by omega))
          have h2 : (2:ℚ) ^ (1024:ℤ) = 2 * 2 ^ (1023:ℤ) := by
            rw [show (1024:ℤ) = 1 + 1023 by norm_num, two_zpow_add]
            norm_num
          have h3 : (2:ℚ) ^ (970:ℤ) < 2 ^ (1023:ℤ) := two_zpow_strict (by norm_num)
          linarith
        have ht971 : t = 971 := by rw [ht, he1023]; decide
        have hK := rnAtScale_ge_of_tie a b (2 ^ 53) hb 971
          (by norm_num) (by norm_num) ?_
        · rw [show (1024:ℤ) - t = 53 by omega,
            ← cast_two_pow' 53 53 (by norm_num)]
          rw [hn, ht971]
          exact_mod_cast hK
        · rw [cast_two_pow' 53 53 (by norm_num)]
          have e1 : (2:ℚ) ^ (53:ℤ) * 2 ^ (971:ℤ) = 2 ^ (1024:ℤ) := by
            rw [← two_zpow_add]
            norm_num
          have e2 : (2:ℚ) ^ (971:ℤ) / 2 = 2 ^ (970:ℤ) := two_zpow_half 971
          linarith

/-! ### Powers of two over `ℝ`, and the double grid -/

theorem two_zpowR_pos (u : ℤ) : (0:ℝ) < 2 ^ u := by positivity

theorem two_zpowR_mono {u v : ℤ} (h : u ≤ v) : (2:ℝ) ^ u ≤ 2 ^ v :=
  zpow_le_zpow_right₀ (by norm_num) h

theorem two_zpowR_strict {u v : ℤ} (h : u < v) : (2:ℝ) ^ u < 2 ^ v :=
  zpow_lt_zpow_right₀ (by norm_num) h

theorem two_zpowR_add (u v : ℤ) : (2:ℝ) ^ (u + v) = 2 ^ u * 2 ^ v :=
  zpow_add₀ (by norm_num) u v

theorem cast_two_powR (k : ℕ) : ((2 ^ k : ℕ) : ℝ) = (2:ℝ) ^ (k : ℤ) := by
  push_cast
  rw [zpow_natCast]

theorem cast_two_powR' (k : ℕ) (u : ℤ) (h : (k : ℤ) = u) :
    ((2 ^ k : ℕ) : ℝ) = (2:ℝ) ^ u := by
  rw [cast_two_powR, h]

theorem ratCast_two_zpow (u : ℤ) : (((2:ℚ) ^ u : ℚ) : ℝ) = (2:ℝ) ^ u := by
  push_cast
  norm_num

theorem finiteDouble_nonneg {y : ℚ} (h : FiniteDouble y) : 0 ≤ y := by
  obtain ⟨m, f, _, _, _, hy⟩ := h
  rw [hy]
  positivity

theorem finiteDouble_castR {y : ℚ} (h : FiniteDouble y) :
    ∃ m : ℕ, ∃ f : ℤ, m < 2 ^ 53 ∧ -1074 ≤ f ∧ f ≤ 971 ∧
      (y:ℝ) = (m:ℝ) * 2 ^ f := by
  obtain ⟨m, f, h1, h2, h3, hy⟩ := h
  refine ⟨m, f, h1, h2, h3, ?_⟩
  rw [hy]
  push_cast
  norm_num

/-- Every finite double with exponent grid at least `2 ^ t` is a natural
multiple of `2 ^ t`, as soon as its own exponent is at least `t`. -/
theorem nearest_subnormal (u : ℝ) (n : ℕ)
    (hnear : ∀ j : ℕ, |u - (n:ℝ) * 2 ^ (-1074 : ℤ)| ≤ |u - (j:ℝ) * 2 ^ (-1074 : ℤ)|) :
    ∀ y : ℚ, FiniteDouble y →
      |u - (n:ℝ) * 2 ^ (-1074 : ℤ)| ≤ |u - (y:ℝ)| := by
  intro y hy
  obtain ⟨m, f, hm, hf1, hf2, hyR⟩ := finiteDouble_castR hy
  have hj : (y:ℝ) = ((m <<< (f + 1074).toNat : ℕ) : ℝ) * 2 ^ (-1074 : ℤ) := by
    rw [hyR, Nat.shiftLeft_eq]
    push_cast
    rw [mul_assoc, ← zpow_natCast (2:ℝ) ((f + 1074).toNat), ← two_zpowR_add]
    congr 2
    omega
  rw [hj]
  exact hnear _

theorem nearest_normal (u : ℝ) (e : ℤ) (n : ℕ)
    (hu1 : (2:ℝ) ^ e ≤ u) (hu2 : u < 2 ^ (e + 1))
    (hhalf : |u - (n:ℝ) * 2 ^ (e - 52)| ≤ 2 ^ (e - 53))
    (hnear : ∀ j : ℕ, |u - (n:ℝ) * 2 ^ (e - 52)| ≤ |u - (j:ℝ) * 2 ^ (e - 52)|) :
    ∀ y : ℚ, FiniteDouble y →
      |u - (n:ℝ) * 2 ^ (e - 52)| ≤ |u - (y:ℝ)| := by
  intro y hy
  obtain ⟨m, f, hm, hf1, hf2, hyR⟩ := finiteDouble_castR hy
  have hy0 : (0:ℝ) ≤ (y:ℝ) := by
    rw [hyR]
    positivity
  by_cases hyge : (2:ℝ) ^ e ≤ (y:ℝ)
  · -- `y` lies on the grid `2 ^ (e - 52)`
    have hf : e - 52 ≤ f := by
      by_contra hc
      push_neg at hc
      have hlt : (y:ℝ) < 2 ^ e := by
        calc (y:ℝ) = (m:ℝ) * 2 ^ f := hyR
          _ < (2:ℝ) ^ (53:ℤ) * 2 ^ f := by
              have : (m:ℝ) < (2:ℝ) ^ (53:ℤ) := by
                rw [← cast_two_powR' 53 53 (by norm_num)]
                exact_mod_cast hm
              exact mul_lt_mul_of_pos_right this (two_zpowR_pos f)
          _ = 2 ^ (53 + f) := (two_zpowR_add _ _).symm
          _ ≤ 2 ^ e := two_zpowR_mono (by omega)
      exact absurd hyge hlt.not_le
    have hj : (y:ℝ) = ((m <<< (f - (e - 52)).toNat : ℕ) : ℝ) * 2 ^ (e - 52) := by
      rw [hyR, Nat.shiftLeft_eq]
      push_cast
      rw [mul_assoc, ← zpow_natCast (2:ℝ) ((f - (e - 52)).toNat), ← two_zpowR_add]
      congr 2
      omega
    rw [hj]
    exact hnear _
  · -- `y` is below the binade: it is at least a half-ulp away from `u`
    push_neg at hyge
    have hclose : (y:ℝ) + 2 ^ (e - 53) ≤ u := by
      have : (y:ℝ) + 2 ^ (e - 53) ≤ 2 ^ e := by
        by_cases hfe : e - 53 ≤ f
        · -- same fine grid: `y` is a multiple of `2 ^ (e - 53)` below `2 ^ e`
          set c := m <<< (f - (e - 53)).toNat with hc
          have hyc : (y:ℝ) = (c:ℝ) * 2 ^ (e - 53) := by
            rw [hyR, hc, Nat.shiftLeft_eq]
            push_cast
            rw [mul_assoc, ← zpow_natCast (2:ℝ) ((f - (e - 53)).toNat),
              ← two_zpowR_add]
            congr 2
            omega
          have hcb : c < 2 ^ 53 := by
            by_contra hcb
            push_neg at hcb
            have : (2:ℝ) ^ e ≤ (y:ℝ) := by
              rw [hyc]
              calc (2:ℝ) ^ e = 2 ^ (53:ℤ) * 2 ^ (e - 53) := by
                    rw [← two_zpowR_add]
                    congr 1
                    omega
                _ ≤ (c:ℝ) * 2 ^ (e - 53) := by
                    have : (2:ℝ) ^ (53:ℤ) ≤ (c:ℝ) := by
                      rw [← cast_two_powR' 53 53 (by norm_num)]
                      exact_mod_cast hcb
                    exact mul_le_mul_of_nonneg_right this (two_zpowR_pos _).le
            exact absurd this (not_le.mpr hyge)
          have hc1 : c ≤ 2 ^ 53 - 1 := by omega
          rw [hyc]
          calc (c:ℝ) * 2 ^ (e - 53) + 2 ^ (e - 53)
              = ((c:ℝ) + 1) * 2 ^ (e - 53) := by ring
            _ ≤ (2:ℝ) ^ (53:ℤ) * 2 ^ (e - 53) := by
                have : (c:ℝ) + 1 ≤ (2:ℝ) ^ (53:ℤ) := by
                  rw [← cast_two_powR' 53 53 (by norm_num)]
                  have h9 : (c:ℕ) + 1 ≤ 2 ^ 53 := by omega
                  exact_mod_cast h9
                exact mul_le_mul_of_nonneg_right this (two_zpowR_pos _).le
            _ = 2 ^ e := by
                rw [← two_zpowR_add]
                congr 1
                omega
        · -- `y < 2 ^ (e - 1)`, so it is far below `u ≥ 2 ^ e`
          push_neg at hfe
          have hy1 : (y:ℝ) < 2 ^ (e - 1) := by
            calc (y:ℝ) = (m:ℝ) * 2 ^ f := hyR
              _ < (2:ℝ) ^ (53:ℤ) * 2 ^ f := by
                  have : (m:ℝ) < (2:ℝ) ^ (53:ℤ) := by
                    rw [← cast_two_powR' 53 53 (by norm_num)]
                    exact_mod_cast hm
                  exact mul_lt_mul_of_pos_right this (two_zpowR_pos f)
              _ = 2 ^ (53 + f) := (two_zpowR_add _ _).symm
              _ ≤ 2 ^ (e - 1) := two_zpowR_mono (by omega)
          have h2 : (2:ℝ) ^ (e - 53) ≤ 2 ^ (e - 1) := two_zpowR_mono (by omega)
          have h3 : (2:ℝ) ^ (e - 1) + 2 ^ (e - 1) = 2 ^ e := by
            have h5 : (2:ℝ) ^ e = 2 ^ (1 + (e - 1)) := by
              congr 1
              omega
            have h4 : (2:ℝ) ^ (1:ℤ) = 2 := by norm_num
            rw [h5, two_zpowR_add, h4]
            ring
          linarith
      linarith
    have habs : |u - (y:ℝ)| = u - (y:ℝ) := by
      rw [abs_of_nonneg]
      have := two_zpowR_pos (e - 53)
      linarith
    rw [habs]
    have := two_zpowR_pos (e - 53)
    linarith [abs_le.mp hhalf |>.2, hclose]

theorem finiteDouble_of_grid {n : ℕ} {t : ℤ} (hn : n ≤ 2 ^ 53) (ht : -1074 ≤ t)
    (hv : (n:ℚ) * 2 ^ t < 2 ^ (1024:ℤ)) : FiniteDouble ((n:ℚ) * 2 ^ t) := by
  by_cases ht9 : t ≤ 971
  · by_cases hn53 : n < 2 ^ 53
    · exact ⟨n, t, hn53, ht, ht9, rfl⟩
    · have hn' : n = 2 ^ 53 := by omega
      have ht0 : t ≤ 970 := by
        by_contra hc
        have ht71 : t = 971 := by omega
        rw [hn', ht71] at hv
        have heq : ((2 ^ 53 : ℕ) : ℚ) * 2 ^ (971:ℤ) = 2 ^ (1024:ℤ) := by
          rw [cast_two_pow' 53 53 (by norm_num), ← two_zpow_add]
          norm_num
        rw [heq] at hv
        exact lt_irrefl _ hv
      refine ⟨2 ^ 52, t + 1, by norm_num, by omega, by omega, ?_⟩
      rw [hn', cast_two_pow' 53 53 (by norm_num), cast_two_pow' 52 52 (by norm_num),
        ← two_zpow_add, ← two_zpow_add]
      congr 1
      omega
  · push_neg at ht9
    have hkey : ((n <<< (t - 971).toNat : ℕ) : ℚ) * 2 ^ (971:ℤ) = (n:ℚ) * 2 ^ t := by
      rw [Nat.shiftLeft_eq]
      push_cast
      rw [mul_assoc, ← zpow_natCast (2:ℚ) ((t - 971).toNat), ← two_zpow_add]
      congr 2
      omega
    have hm53 : n <<< (t - 971).toNat < 2 ^ 53 := by
      have h1 : ((n <<< (t - 971).toNat : ℕ) : ℚ) * 2 ^ (971:ℤ) <
          ((2 ^ 53 : ℕ) : ℚ) * 2 ^ (971:ℤ) := by
        rw [hkey, cast_two_pow' 53 53 (by norm_num), ← two_zpow_add]
        rw [show (53:ℤ) + 971 = 1024 by norm_num]
        exact hv
      have h2 : ((n <<< (t - 971).toNat : ℕ) : ℚ) < ((2 ^ 53 : ℕ) : ℚ) :=
        lt_of_mul_lt_mul_right h1 (two_zpow_pos 971).le
      exact_mod_cast h2
    refine ⟨n <<< (t - 971).toNat, 971, hm53, by norm_num, le_refl _, hkey.symm⟩

theorem ratCast_abs_le {x y : ℚ} (h : |x| ≤ |y|) : |(x:ℝ)| ≤ |(y:ℝ)| := by
  rw [← Rat.cast_abs, ← Rat.cast_abs]
  exact_mod_cast h

theorem fval_pair (n : ℕ) (t : ℤ) : fval (n, t) = (n:ℚ) * 2 ^ t := rfl

theorem fval_castR (n : ℕ) (t : ℤ) :
    ((fval (n, t) : ℚ) : ℝ) = (n:ℝ) * 2 ^ t := by
  rw [fval_pair]
  push_cast
  norm_num

/-- The embedded float division returns a double nearest to the exact
quotient whenever it does not overflow. -/
theorem roundFloat_nearest {a b : ℕ} (hb : 0 < b)
    (hg : ¬ 1 <<< (1024 - (roundFloat a b).2).toNat ≤ (roundFloat a b).1) :
    NearestDouble ((a:ℝ) / b) (fval (roundFloat a b)) := by
  have hbq : (0:ℚ) < (b:ℚ) := by exact_mod_cast hb
  by_cases ha : a = 0
  · subst ha
    have hrf : roundFloat 0 b = (0, 0) := by simp [roundFloat]
    rw [hrf]
    constructor
    · rw [fval_pair]
      exact ⟨0, 0, by norm_num, by norm_num, by norm_num, by norm_num⟩
    · intro y hy
      have h0 : ((0:ℕ):ℝ) / b = 0 := by norm_num
      rw [h0, fval_castR]
      simp
  · have ha' : 0 < a := Nat.pos_of_ne_zero ha
    have haq : (0:ℚ) < (a:ℚ) := by exact_mod_cast ha'
    have hgq : ¬ ((2:ℚ) ^ (1024:ℤ) - 2 ^ (970:ℤ) ≤ (a:ℚ) / b) :=
      fun hc => hg ((overflow_iff hb).mpr hc)
    push_neg at hgq
    have hrf : roundFloat a b =
        (rnAtScale a b (max (fexp a b - 52) (-1074)), max (fexp a b - 52) (-1074)) := by
      simp [roundFloat, ha]
    rw [hrf]
    have hrange := fexp_range a b
    set e := fexp a b with he
    set t := max (e - 52) (-1074) with ht
    set n := rnAtScale a b t with hn
    have ht1 : -1074 ≤ t := le_max_right _ _
    have he1024 : e ≠ 1024 := by
      intro h4
      have hlow := fexp_lower' hb (by rw [← he, h4]; norm_num)
      rw [← he, h4] at hlow
      have := two_zpow_pos 970
      have h2 : (2:ℚ) ^ (970:ℤ) < 2 ^ (1024:ℤ) := two_zpow_strict (by norm_num)
      linarith
    have hup : (a:ℚ) / b < 2 ^ (e + 1) := by
      have h := fexp_upper (a := a) hb
      rw [← he] at h
      exact h.resolve_right he1024
    have ht2 : t ≤ 971 := max_le (by omega) (by norm_num)
    have hhalf := rnAtScale_half a b hb t
    have habs := abs_le.mp hhalf
    have hpow_t : (2:ℚ) ^ t / 2 = 2 ^ (t - 1) := two_zpow_half t
    have hvub : (n:ℚ) * 2 ^ t ≤ (a:ℚ) / b + 2 ^ (t - 1) := by
      have := habs.1
      linarith [hpow_t ▸ this]
    have hval : (n:ℚ) * 2 ^ t < 2 ^ (1024:ℤ) := by
      have h1 : (2:ℚ) ^ (t - 1) ≤ 2 ^ (970:ℤ) := two_zpow_mono (by omega)
      linarith
    have hn53 : n ≤ 2 ^ 53 := by
      have h1 : (2:ℚ) ^ (e + 1) ≤ 2 ^ (53 + t) := two_zpow_mono (by omega)
      have h2 : (2:ℚ) ^ (t - 1) ≤ 2 ^ t := two_zpow_mono (by omega)
      have h3 : (2:ℚ) ^ (53 + t) = 2 ^ (53:ℤ) * 2 ^ t := two_zpow_add _ _
      have h4 : (n:ℚ) * 2 ^ t < ((2:ℚ) ^ (53:ℤ) + 1) * 2 ^ t := by
        have expand : ((2:ℚ) ^ (53:ℤ) + 1) * 2 ^ t = 2 ^ (53:ℤ) * 2 ^ t + 2 ^ t := by
          ring
        rw [expand]
        linarith
      have h5 : (n:ℚ) < 2 ^ (53:ℤ) + 1 :=
        lt_of_mul_lt_mul_right h4 (two_zpow_pos t).le
      have h6 : (n:ℚ) < ((2 ^ 53 + 1 : ℕ) : ℚ) := by
        rw [show ((2 ^ 53 + 1 : ℕ) : ℚ) = ((2 ^ 53 : ℕ) : ℚ) + 1 by push_cast; ring,
          cast_two_pow' 53 53 (by norm_num)]
        exact h5
      have h7 : n < 2 ^ 53 + 1 := by exact_mod_cast h6
      omega
    constructor
    · rw [fval_pair]
      exact finiteDouble_of_grid hn53 ht1 hval
    · rw [fval_castR]
      have hnearR : ∀ j : ℕ, |(a:ℝ) / b - (n:ℝ) * 2 ^ t| ≤
          |(a:ℝ) / b - (j:ℝ) * 2 ^ t| := by
        intro j
        have hQ := rnAtScale_nearest a b hb t j
        have h1 : (((a:ℚ) / b - (rnAtScale a b t : ℚ) * 2 ^ t : ℚ) : ℝ) =
            (a:ℝ) / b - (n:ℝ) * 2 ^ t := by
          push_cast
          norm_num
        have h2 : (((a:ℚ) / b - (j:ℚ) * 2 ^ t : ℚ) : ℝ) =
            (a:ℝ) / b - (j:ℝ) * 2 ^ t := by
          push_cast
          norm_num
        rw [← h1, ← h2]
        exact ratCast_abs_le hQ
      rcases max_cases (e - 52) (-1074 : ℤ) with ⟨hteq, hcase⟩ | ⟨hteq, hcase⟩
      · -- normal binade: grid `2 ^ (e - 52)`
        have hte : t = e - 52 := by rw [ht, hteq]
        have hene : e ≠ -1075 := by omega
        have hlow := fexp_lower' hb (by rw [← he]; exact hene)
        rw [← he] at hlow
        have hu1 : (2:ℝ) ^ e ≤ (a:ℝ) / b := by
          have h9 : (((2:ℚ) ^ e : ℚ) : ℝ) ≤ (((a:ℚ) / b : ℚ) : ℝ) := by
            exact_mod_cast hlow
          rw [ratCast_two_zpow] at h9
          push_cast at h9
          exact h9
        have hu2 : (a:ℝ) / b < 2 ^ (e + 1) := by
          have h9 : (((a:ℚ) / b : ℚ) : ℝ) < (((2:ℚ) ^ (e + 1) : ℚ) : ℝ) := by
            exact_mod_cast hup
          rw [ratCast_two_zpow] at h9
          push_cast at h9
          exact h9
        have hQ : |(a:ℚ) / b - (rnAtScale a b t : ℚ) * 2 ^ t| ≤ 2 ^ (t - 1) := by
          rw [← hpow_t]
          exact hhalf
        have h1 : (((a:ℚ) / b - (rnAtScale a b t : ℚ) * 2 ^ t : ℚ) : ℝ) =
            (a:ℝ) / b - (n:ℝ) * 2 ^ t := by
          push_cast
          norm_num
        have hhalfR : |(a:ℝ) / b - (n:ℝ) * 2 ^ t| ≤ (2:ℝ) ^ (t - 1) := by
          have h4 : |(a:ℝ) / b - (n:ℝ) * 2 ^ t| ≤ (((2:ℚ) ^ (t - 1) : ℚ) : ℝ) := by
            rw [← h1, ← Rat.cast_abs]
            exact_mod_cast hQ
          rw [ratCast_two_zpow] at h4
          exact h4
        rw [hte] at hhalfR hnearR ⊢
        rw [show e - 52 - 1 = e - 53 by ring] at hhalfR
        exact nearest_normal _ e n hu1 hu2 hhalfR hnearR
      · -- subnormal grid `2 ^ (-1074)`
        have hts : t = -1074 := hteq
        rw [hts] at hnearR ⊢
        exact nearest_subnormal _ _ hnearR

theorem isqrtN_spec {A : ℕ} (hA : A ≤ 2 ^ 1100) :
    isqrtN A ^ 2 ≤ A ∧ A < (isqrtN A + 1) ^ 2 := by
  have hdef : isqrtN A =
      (bisect (fun k => decide (k * k ≤ (A : ℤ))) 601 0 (1 <<< 600)).toNat := rfl
  have hshiftN : (1 <<< 600 : ℕ) = 2 ^ 600 := by
    rw [Nat.shiftLeft_eq, one_mul]
  have hshift : (((1 <<< 600 : ℕ) : ℤ)) = 2 ^ 600 := by
    rw [hshiftN]
    push_cast
    ring
  have hw : (((1 <<< 600 : ℕ) : ℤ)) - 0 ≤ 2 ^ 601 := by
    rw [hshift]
    have : (2:ℤ) ^ 600 ≤ 2 ^ 601 := pow_le_pow_right₀ (by norm_num) (by norm_num)
    omega
  have hlh : (0:ℤ) < ((1 <<< 600 : ℕ) : ℤ) := by
    rw [hshift]
    positivity
  have h := bisect_spec (fun k => decide (k * k ≤ (A : ℤ))) 601 0 (1 <<< 600) hlh hw
  set r := bisect (fun k => decide (k * k ≤ (A : ℤ))) 601 0 (1 <<< 600) with hr
  have hr0 : 0 ≤ r := h.1
  have hlow : r * r ≤ (A : ℤ) := by
    rcases h.2.2.1 with h3 | h3
    · exact of_decide_eq_true h3
    · rw [h3]
      positivity
  have hhigh : (A : ℤ) < (r + 1) * (r + 1) := by
    rcases h.2.2.2 with h4 | h4
    · have := of_decide_eq_false h4
      omega
    · exfalso
      have hrv : r = 2 ^ 600 - 1 := by
        rw [hshift] at h4
        omega
      have h1 : (2:ℤ) ^ 599 ≤ 2 ^ 600 - 1 := by
        have : (2:ℤ) ^ 600 = 2 * 2 ^ 599 := by ring
        have h2 : (1:ℤ) ≤ 2 ^ 599 := one_le_pow₀ (by norm_num)
        omega
      have h2 : ((2:ℤ) ^ 599) * ((2:ℤ) ^ 599) = 2 ^ 1198 := by
        rw [← pow_add]
      have h3 : (2:ℤ) ^ 1100 < 2 ^ 1198 := pow_lt_pow_right₀ (by norm_num) (by norm_num)
      have h4' : (A:ℤ) ≤ 2 ^ 1100 := by exact_mod_cast hA
      have h5 : ((2:ℤ) ^ 600 - 1) * ((2:ℤ) ^ 600 - 1) ≤ A := by
        rw [← hrv]
        exact hlow
      nlinarith [h1, h2, h3, h4', h5]
  constructor
  · have : (r.toNat : ℤ) * r.toNat ≤ (A:ℤ) := by
      rw [Int.toNat_of_nonneg hr0]
      exact hlow
    rw [hdef]
    have h6 : r.toNat * r.toNat ≤ A := by exact_mod_cast this
    nlinarith [h6]
  · have : (A:ℤ) < (r.toNat + 1) * (r.toNat + 1) := by
      rw [Int.toNat_of_nonneg hr0]
      exact hhigh
    rw [hdef]
    have h6 : A < (r.toNat + 1) * (r.toNat + 1) := by exact_mod_cast this
    nlinarith [h6]

theorem nearestInt_R {u : ℝ} {n : ℕ} (h : |u - n| ≤ 1 / 2) (j : ℕ) :
    |u - (n:ℝ)| ≤ |u - (j:ℝ)| := by
  by_cases hj : j = n
  · rw [hj]
  · have hne : (n:ℤ) - (j:ℤ) ≠ 0 := by
      have : n ≠ j := fun hc => hj hc.symm
      omega
    have h1 : (1:ℝ) ≤ |(n:ℝ) - (j:ℝ)| := by
      have h0 : (1:ℝ) ≤ ((|(n:ℤ) - (j:ℤ)| : ℤ) : ℝ) := by
        exact_mod_cast Int.one_le_abs hne
      push_cast at h0
      exact h0
    have h3 : |(n:ℝ) - (j:ℝ)| ≤ |(n:ℝ) - u| + |u - (j:ℝ)| := abs_sub_le _ _ _
    have h4 : |(n:ℝ) - u| = |u - (n:ℝ)| := abs_sub_comm _ _
    linarith

theorem nat_le_of_cast_ltR {K n : ℕ} (h : (n:ℝ) < (K:ℝ) + 1) : n ≤ K := by
  have h2 : n < K + 1 := by exact_mod_cast h
  omega

section FloatAnalysis

attribute [local irreducible] bisect fexp isqrtN

set_option maxHeartbeats 1000000 in
/-- The embedded float square root returns a double nearest to the real
square root of its (well-formed, positive) input. -/
theorem fsqrt_nearest {n : ℕ} {t : ℤ} (hn1 : 1 ≤ n) (hn : n ≤ 2 ^ 53)
    (ht1 : -1074 ≤ t) (ht2 : t ≤ 971) :
    NearestDouble (Real.sqrt ((n:ℝ) * 2 ^ t)) (fval (fsqrt (n, t))) := by
  have hne0 : n ≠ 0 := by omega
  have hnq1 : (1:ℚ) ≤ (n:ℚ) := by exact_mod_cast hn1
  -- `fexp n 1` is the exact binary logarithm of the mantissa
  have hlo75 : (2:ℚ) ^ (-1075:ℤ) ≤ (n:ℚ) / ((1:ℕ):ℚ) := by
    rw [Nat.cast_one, div_one]
    calc (2:ℚ) ^ (-1075:ℤ) ≤ 2 ^ (0:ℤ) := two_zpow_mono (by norm_num)
      _ = 1 := by norm_num
      _ ≤ (n:ℚ) := hnq1
  have hplow : (2:ℚ) ^ (fexp n 1) ≤ (n:ℚ) := by
    have h := fexp_lower (a := n) (b := 1) (by norm_num) hlo75
    rwa [Nat.cast_one, div_one] at h
  have hpup : (n:ℚ) < 2 ^ (fexp n 1 + 1) := by
    rcases fexp_upper (a := n) (b := 1) (by norm_num) with h | h
    · rwa [Nat.cast_one, div_one] at h
    · exfalso
      rw [h] at hplow
      have h2 : (n:ℚ) ≤ ((2 ^ 53 : ℕ) : ℚ) := by exact_mod_cast hn
      rw [cast_two_pow' 53 53 (by norm_num)] at h2
      have h3 := two_zpow_strict (show (53:ℤ) < 1024 by norm_num)
      linarith
  have hp0 : 0 ≤ fexp n 1 := by
    by_contra hc
    push_neg at hc
    have h1 : (n:ℚ) < 2 ^ (0:ℤ) := lt_of_lt_of_le hpup (two_zpow_mono (by omega))
    rw [show (2:ℚ) ^ (0:ℤ) = 1 by norm_num] at h1
    linarith
  have hp53 : fexp n 1 ≤ 53 := by
    by_contra hc
    push_neg at hc
    have h1 : (2:ℚ) ^ (54:ℤ) ≤ (n:ℚ) := le_trans (two_zpow_mono (by omega)) hplow
    have h2 : (n:ℚ) ≤ ((2 ^ 53 : ℕ) : ℚ) := by exact_mod_cast hn
    rw [cast_two_pow' 53 53 (by norm_num)] at h2
    have h3 := two_zpow_strict (show (53:ℤ) < 54 by norm_num)
    linarith
  -- unfold the definition and name its parts by opaque variables
  simp only [fsqrt, hne0, if_false, ite_false]
  obtain ⟨p, hpdef⟩ : ∃ p, fexp n 1 = p := ⟨_, rfl⟩
  rw [hpdef] at hplow hpup hp0 hp53 ⊢
  obtain ⟨h2e, hh2e⟩ : ∃ x, Int.fdiv (p + t) 2 = x := ⟨_, rfl⟩
  rw [hh2e]
  obtain ⟨tq, htqdef⟩ : ∃ x, max (h2e - 52) (-1074:ℤ) = x := ⟨_, rfl⟩
  rw [htqdef]
  obtain ⟨k, hkdef⟩ : ∃ x, (t - 2 * tq).toNat = x := ⟨_, rfl⟩
  rw [hkdef]
  obtain ⟨A, hAdef⟩ : ∃ x, n <<< k = x := ⟨_, rfl⟩
  rw [hAdef]
  obtain ⟨f, hfdef⟩ : ∃ x, isqrtN A = x := ⟨_, rfl⟩
  rw [hfdef]
  -- arithmetic facts about the exponents
  have hfd : h2e = (p + t) / 2 := by
    rw [← hh2e]
    exact Int.fdiv_eq_ediv _ (by norm_num)
  have hh1 : 2 * h2e ≤ p + t := by omega
  have hh2 : p + t ≤ 2 * h2e + 1 := by omega
  have hh512 : h2e ≤ 512 := by omega
  have htq1 : -1074 ≤ tq := by rw [← htqdef]; exact le_max_right _ _
  have htq2 : h2e - 52 ≤ tq := by rw [← htqdef]; exact le_max_left _ _
  have hcases : tq = h2e - 52 ∨ (tq = -1074 ∧ h2e - 52 ≤ -1074) := by
    rcases max_cases (h2e - 52) (-1074:ℤ) with ⟨h1, h2⟩ | ⟨h1, h2⟩
    · left; omega
    · right; exact ⟨by omega, by omega⟩
  have hk0 : 0 ≤ t - 2 * tq := by rcases hcases with h | ⟨h, h2⟩ <;> omega
  have hkeq : (k : ℤ) = t - 2 * tq := by omega
  have hk105 : k ≤ 105 := by rcases hcases with h | ⟨h, h2⟩ <;> omega
  -- the radicand is small enough for the bisection square root
  have hA1100 : A ≤ 2 ^ 1100 := by
    rw [← hAdef, Nat.shiftLeft_eq]
    calc n * 2 ^ k ≤ 2 ^ 53 * 2 ^ 105 :=
          Nat.mul_le_mul hn (Nat.pow_le_pow_right (by norm_num) hk105)
      _ = 2 ^ 158 := by rw [← pow_add]
      _ ≤ 2 ^ 1100 := Nat.pow_le_pow_right (by norm_num) (by norm_num)
  have hsp := isqrtN_spec hA1100
  rw [hfdef] at hsp
  obtain ⟨hfsq, hfsq'⟩ := hsp
  have hA0 : (0:ℝ) ≤ (A:ℝ) := by positivity
  -- the real value and its square root
  set X : ℝ := (n:ℝ) * 2 ^ t with hX
  have hXA : (A:ℝ) * 2 ^ (2 * tq) = X := by
    rw [← hAdef, Nat.shiftLeft_eq, hX]
    push_cast
    rw [mul_assoc, ← zpow_natCast (2:ℝ) k, ← two_zpowR_add]
    congr 2
    omega
  have hsq2t : Real.sqrt ((2:ℝ) ^ (2 * tq)) = 2 ^ tq := by
    have h1 : ((2:ℝ) ^ tq) ^ 2 = 2 ^ (2 * tq) := by
      rw [sq, ← two_zpowR_add]
      congr 1
      ring
    rw [← h1, Real.sqrt_sq (two_zpowR_pos tq).le]
  have hsX : Real.sqrt X = Real.sqrt (A:ℝ) * 2 ^ tq := by
    rw [← hXA, Real.sqrt_mul hA0, hsq2t]
  have hsA0 : 0 ≤ Real.sqrt (A:ℝ) := Real.sqrt_nonneg _
  -- bounds on `√A` from the bisection square root
  have hfle : (f:ℝ) ≤ Real.sqrt (A:ℝ) := by
    rw [Real.le_sqrt (by positivity) (by positivity)]
    exact_mod_cast hfsq
  have hflt : Real.sqrt (A:ℝ) < (f:ℝ) + 1 := by
    rw [Real.sqrt_lt' (by positivity)]
    push_cast
    exact_mod_cast hfsq'
  -- the value and its square root, located in their binades
  have hXlow : (2:ℝ) ^ (p + t) ≤ X := by
    rw [hX, two_zpowR_add]
    have h1 : (2:ℝ) ^ p ≤ (n:ℝ) := by
      have h9 : (((2:ℚ) ^ p : ℚ) : ℝ) ≤ (((n:ℚ)) : ℝ) := by exact_mod_cast hplow
      rw [ratCast_two_zpow] at h9
      push_cast at h9
      exact h9
    exact mul_le_mul_of_nonneg_right h1 (two_zpowR_pos t).le
  have hXup : X < 2 ^ (p + t + 1) := by
    rw [hX, show p + t + 1 = (p + 1) + t by ring, two_zpowR_add]
    have h1 : (n:ℝ) < (2:ℝ) ^ (p + 1) := by
      have h9 : (((n:ℚ)) : ℝ) < (((2:ℚ) ^ (p + 1) : ℚ) : ℝ) := by exact_mod_cast hpup
      rw [ratCast_two_zpow] at h9
      push_cast at h9
      exact h9
    exact mul_lt_mul_of_pos_right h1 (two_zpowR_pos t)
  have hslow : (2:ℝ) ^ h2e ≤ Real.sqrt X := by
    have h1 : ((2:ℝ) ^ h2e) ^ 2 = 2 ^ (2 * h2e) := by
      rw [sq, ← two_zpowR_add]
      congr 1
      ring
    rw [show (2:ℝ) ^ h2e = Real.sqrt (((2:ℝ) ^ h2e) ^ 2) from
      (Real.sqrt_sq (two_zpowR_pos h2e).le).symm, h1]
    exact Real.sqrt_le_sqrt (le_trans (two_zpowR_mono (by omega)) hXlow)
  have hsup : Real.sqrt X < 2 ^ (h2e + 1) := by
    rw [Real.sqrt_lt' (two_zpowR_pos _)]
    have h1 : ((2:ℝ) ^ (h2e + 1)) ^ 2 = 2 ^ (2 * h2e + 2) := by
      rw [sq, ← two_zpowR_add]
      congr 1
      ring
    rw [h1]
    exact lt_of_lt_of_le hXup (two_zpowR_mono (by omega))
  have hsAup : Real.sqrt (A:ℝ) < 2 ^ (h2e + 1 - tq) := by
    have h1 : Real.sqrt (A:ℝ) * 2 ^ tq < 2 ^ (h2e + 1 - tq) * 2 ^ tq := by
      rw [← hsX, ← two_zpowR_add, show h2e + 1 - tq + tq = h2e + 1 by ring]
      exact hsup
    exact lt_of_mul_lt_mul_right h1 (two_zpowR_pos tq).le
  -- the common assembly: a correctly rounded mantissa gives a nearest double
  have hmain : ∀ m : ℕ, |Real.sqrt (A:ℝ) - (m:ℝ)| ≤ 1 / 2 →
      NearestDouble (Real.sqrt X) (fval (m, tq)) := by
    intro m hhalfA
    have habs' := abs_le.mp hhalfA
    have hm_up : (m:ℝ) ≤ Real.sqrt (A:ℝ) + 1 / 2 := by linarith
    have hm53 : m ≤ 2 ^ 53 := by
      apply nat_le_of_cast_ltR
      have h1 : (2:ℝ) ^ (h2e + 1 - tq) ≤ 2 ^ (53:ℤ) := two_zpowR_mono (by omega)
      have h2 : (2:ℝ) ^ (53:ℤ) = ((2 ^ 53 : ℕ) : ℝ) :=
        (cast_two_powR' 53 53 (by norm_num)).symm
      rw [← h2]
      linarith
    have hhalf2 : (2:ℝ) ^ tq / 2 = 2 ^ (tq - 1) := by
      have h := two_zpowR_add (tq - 1) 1
      rw [sub_add_cancel] at h
      rw [h]
      norm_num
    have hgrid_half : |Real.sqrt X - (m:ℝ) * 2 ^ tq| ≤ 2 ^ (tq - 1) := by
      have h1 : Real.sqrt X - (m:ℝ) * 2 ^ tq =
          (Real.sqrt (A:ℝ) - (m:ℝ)) * 2 ^ tq := by
        rw [hsX]
        ring
      rw [h1, abs_mul, abs_of_pos (two_zpowR_pos tq)]
      calc |Real.sqrt (A:ℝ) - (m:ℝ)| * 2 ^ tq ≤ (1 / 2) * 2 ^ tq :=
            mul_le_mul_of_nonneg_right hhalfA (two_zpowR_pos tq).le
        _ = 2 ^ tq / 2 := by ring
        _ = 2 ^ (tq - 1) := hhalf2
    have hgrid_near : ∀ j : ℕ, |Real.sqrt X - (m:ℝ) * 2 ^ tq| ≤
        |Real.sqrt X - (j:ℝ) * 2 ^ tq| := by
      intro j
      have h1 : ∀ y : ℝ, Real.sqrt X - y * 2 ^ tq =
          (Real.sqrt (A:ℝ) - y) * 2 ^ tq := by
        intro y
        rw [hsX]
        ring
      rw [h1, h1, abs_mul, abs_mul, abs_of_pos (two_zpowR_pos tq)]
      exact mul_le_mul_of_nonneg_right (nearestInt_R hhalfA j) (two_zpowR_pos tq).le
    have hvalR : (m:ℝ) * 2 ^ tq < 2 ^ (1024:ℤ) := by
      have h2 : (m:ℝ) * 2 ^ tq ≤ (Real.sqrt (A:ℝ) + 1 / 2) * 2 ^ tq :=
        mul_le_mul_of_nonneg_right hm_up (two_zpowR_pos tq).le
      have h3 : (Real.sqrt (A:ℝ) + 1 / 2) * 2 ^ tq =
          Real.sqrt X + 2 ^ tq / 2 := by
        rw [hsX]
        ring
      rw [h3, hhalf2] at h2
      have h5 : Real.sqrt X < 2 ^ (513:ℤ) :=
        lt_of_lt_of_le hsup (two_zpowR_mono (by omega))
      have h6 : (2:ℝ) ^ (tq - 1) ≤ 2 ^ (513:ℤ) := two_zpowR_mono (by omega)
      have h7 : (2:ℝ) ^ (513:ℤ) + 2 ^ (513:ℤ) ≤ 2 ^ (1024:ℤ) := by
        have h8 : (2:ℝ) ^ (513:ℤ) + 2 ^ (513:ℤ) = 2 ^ (514:ℤ) := by
          have h := two_zpowR_add 513 1
          rw [show (513:ℤ) + 1 = 514 by norm_num] at h
          rw [h]
          ring
        rw [h8]
        exact two_zpowR_mono (by norm_num)
      linarith
    constructor
    · rw [fval_pair]
      apply finiteDouble_of_grid hm53 htq1
      have hq : (((m:ℚ) * 2 ^ tq : ℚ) : ℝ) < (((2:ℚ) ^ (1024:ℤ) : ℚ) : ℝ) := by
        rw [ratCast_two_zpow]
        push_cast
        exact_mod_cast hvalR
      exact_mod_cast hq
    · rw [fval_castR]
      rcases hcases with hte | ⟨hte, hge⟩
      · rw [hte] at hgrid_half hgrid_near ⊢
        rw [show h2e - 52 - 1 = h2e - 53 by ring] at hgrid_half
        exact nearest_normal _ h2e m hslow hsup hgrid_half hgrid_near
      · rw [hte] at hgrid_near ⊢
        exact nearest_subnormal _ _ hgrid_near
  -- branch on the rounding decision for the mantissa
  by_cases hc1 : 4 * A < (2 * f + 1) ^ 2
  · rw [if_pos hc1]
    apply hmain
    have hsq : Real.sqrt (A:ℝ) < (f:ℝ) + 1 / 2 := by
      rw [Real.sqrt_lt' (by positivity)]
      have h1 : ((4 * A : ℕ) : ℝ) < (((2 * f + 1) ^ 2 : ℕ) : ℝ) := by exact_mod_cast hc1
      push_cast at h1
      rw [show ((f:ℝ) + 1 / 2) ^ 2 = (2 * (f:ℝ) + 1) ^ 2 / 4 by ring]
      linarith
    rw [abs_le]
    constructor
    · linarith
    · linarith
  · rw [if_neg hc1]
    push_neg at hc1
    by_cases hc2 : (2 * f + 1) ^ 2 < 4 * A
    · rw [if_pos hc2]
      apply hmain
      have hsq : (f:ℝ) + 1 / 2 ≤ Real.sqrt (A:ℝ) := by
        rw [Real.le_sqrt (by positivity) (by positivity)]
        have h1 : (((2 * f + 1) ^ 2 : ℕ) : ℝ) < ((4 * A : ℕ) : ℝ) := by exact_mod_cast hc2
        push_cast at h1
        rw [show ((f:ℝ) + 1 / 2) ^ 2 = (2 * (f:ℝ) + 1) ^ 2 / 4 by ring]
        linarith
      rw [abs_le]
      push_cast
      constructor
      · linarith
      · linarith
    · rw [if_neg hc2]
      push_neg at hc2
      have heq : 4 * A = (2 * f + 1) ^ 2 := by omega
      have hsq : Real.sqrt (A:ℝ) = (f:ℝ) + 1 / 2 := by
        have h1 : ((A:ℕ):ℝ) = ((f:ℝ) + 1 / 2) ^ 2 := by
          have h2 : ((4 * A : ℕ) : ℝ) = (((2 * f + 1) ^ 2 : ℕ) : ℝ) := by
            exact_mod_cast heq
          push_cast at h2
          rw [show ((f:ℝ) + 1 / 2) ^ 2 = (2 * (f:ℝ) + 1) ^ 2 / 4 by ring]
          linarith
        rw [h1, Real.sqrt_sq (by positivity)]
      by_cases hpar : f % 2 = 0
      · rw [if_pos hpar]
        apply hmain
        rw [hsq, show (f:ℝ) + 1 / 2 - (f:ℝ) = 1 / 2 by ring, abs_le]
        constructor <;> norm_num
      · rw [if_neg hpar]
        apply hmain
        rw [hsq]
        push_cast
        rw [show (f:ℝ) + 1 / 2 - ((f:ℝ) + 1) = -(1 / 2) by ring, abs_le]
        constructor <;> norm_num

end FloatAnalysis

theorem floorX96_eq (s : ℕ × ℤ) : floorX96 s = ⌊fval s * 2 ^ (96:ℕ)⌋ := by
  have hval : fval s * 2 ^ (96:ℕ) = (s.1 : ℚ) * 2 ^ (s.2 + 96) := by
    unfold fval
    rw [two_zpow_add, mul_assoc]
    congr 2
    rw [← zpow_natCast]
    norm_num
  unfold floorX96
  by_cases hc : 0 ≤ s.2 + 96
  · rw [if_pos hc, hval]
    have h1 : (s.1 : ℚ) * 2 ^ (s.2 + 96) = ((s.1 <<< (s.2 + 96).toNat : ℕ) : ℚ) := by
      rw [Nat.shiftLeft_eq]
      push_cast
      congr 1
      rw [← zpow_natCast]
      congr 1
      omega
    rw [h1, Int.floor_natCast]
  · rw [if_neg hc, hval]
    have h1 : (s.1 : ℚ) * 2 ^ (s.2 + 96) =
        ((s.1 : ℕ) : ℚ) / ((2 ^ (-(s.2 + 96)).toNat : ℕ) : ℚ) := by
      rw [eq_div_iff (by positivity), cast_two_pow, mul_assoc, ← two_zpow_add]
      have h2 : s.2 + 96 + ((-(s.2 + 96)).toNat : ℤ) = 0 := by omega
      rw [h2]
      norm_num
    rw [h1, Rat.floor_natCast_div_natCast, Nat.shiftRight_eq_div_pow]
    push_cast
    ring

theorem nearestDouble_zero : NearestDouble 0 0 := by
  constructor
  · exact ⟨0, 0, by norm_num, by norm_num, by norm_num, by norm_num⟩
  · intro y hy
    rw [Rat.cast_zero, sub_zero, abs_zero, zero_sub, abs_neg]
    exact abs_nonneg _

section FloatShape

attribute [local irreducible] bisect fexp isqrtN

/-- Bounds on the mantissa and exponent of a non-overflowing division
result, as needed for the square-root stage. -/
theorem roundFloat_shape {a b : ℕ} (hb : 0 < b)
    (hg : ¬ 1 <<< (1024 - (roundFloat a b).2).toNat ≤ (roundFloat a b).1) :
    (roundFloat a b).1 ≤ 2 ^ 53 ∧ -1074 ≤ (roundFloat a b).2 ∧
      (roundFloat a b).2 ≤ 971 := by
  by_cases ha : a = 0
  · subst ha
    have hrf : roundFloat 0 b = (0, 0) := by simp [roundFloat]
    rw [hrf]
    refine ⟨by positivity, by norm_num, by norm_num⟩
  · have ha' : 0 < a := Nat.pos_of_ne_zero ha
    have hbq : (0:ℚ) < (b:ℚ) := by exact_mod_cast hb
    have hgq : ¬ ((2:ℚ) ^ (1024:ℤ) - 2 ^ (970:ℤ) ≤ (a:ℚ) / b) :=
      fun hc => hg ((overflow_iff hb).mpr hc)
    push_neg at hgq
    have hrf : roundFloat a b =
        (rnAtScale a b (max (fexp a b - 52) (-1074)), max (fexp a b - 52) (-1074)) := by
      simp [roundFloat, ha]
    rw [hrf]
    have hrange := fexp_range a b
    set e := fexp a b with he
    set t := max (e - 52) (-1074) with ht
    set n := rnAtScale a b t with hn
    have ht1 : -1074 ≤ t := le_max_right _ _
    have he1024 : e ≠ 1024 := by
      intro h4
      have hlow := fexp_lower' hb (by rw [← he, h4]; norm_num)
      rw [← he, h4] at hlow
      have := two_zpow_pos 970
      have h2 : (2:ℚ) ^ (970:ℤ) < 2 ^ (1024:ℤ) := two_zpow_strict (by norm_num)
      linarith
    have hup : (a:ℚ) / b < 2 ^ (e + 1) := by
      have h := fexp_upper (a := a) hb
      rw [← he] at h
      exact h.resolve_right he1024
    have ht2 : t ≤ 971 := max_le (by omega) (by norm_num)
    have hhalf := rnAtScale_half a b hb t
    have habs := abs_le.mp hhalf
    have hpow_t : (2:ℚ) ^ t / 2 = 2 ^ (t - 1) := two_zpow_half t
    have hvub : (n:ℚ) * 2 ^ t ≤ (a:ℚ) / b + 2 ^ (t - 1) := by
      have := habs.1
      linarith [hpow_t ▸ this]
    refine ⟨?_, ht1, ht2⟩
    have h1 : (2:ℚ) ^ (e + 1) ≤ 2 ^ (53 + t) := two_zpow_mono (by omega)
    have h2 : (2:ℚ) ^ (t - 1) ≤ 2 ^ t := two_zpow_mono (by omega)
    have h3 : (2:ℚ) ^ (53 + t) = 2 ^ (53:ℤ) * 2 ^ t := two_zpow_add _ _
    have h4 : (n:ℚ) * 2 ^ t < ((2:ℚ) ^ (53:ℤ) + 1) * 2 ^ t := by
      have expand : ((2:ℚ) ^ (53:ℤ) + 1) * 2 ^ t = 2 ^ (53:ℤ) * 2 ^ t + 2 ^ t := by
        ring
      rw [expand]
      linarith
    have h5 : (n:ℚ) < 2 ^ (53:ℤ) + 1 :=
      lt_of_mul_lt_mul_right h4 (two_zpow_pos t).le
    have h6 : (n:ℚ) < ((2 ^ 53 + 1 : ℕ) : ℚ) := by
      rw [show ((2 ^ 53 + 1 : ℕ) : ℚ) = ((2 ^ 53 : ℕ) : ℚ) + 1 by push_cast; ring,
        cast_two_pow' 53 53 (by norm_num)]
      exact h5
    have h7 : n < 2 ^ 53 + 1 := by exact_mod_cast h6
    omega

/-- Policy-A characterization of the embedded script: in the absence of
overflow, the returned integer is the floor of `s * 2 ^ 96`, where `s` is
a binary64 number nearest to the square root of a binary64 number nearest
to the exact price ratio. -/
theorem calculate_sqrt_price_policyA (r0 r1 d0 d1 : ℕ) (h0 : 0 < r0)
    (hnof : ((r1 * 10 ^ d1 : ℕ) : ℚ) / ((r0 * 10 ^ d0 : ℕ) : ℚ) <
      2 ^ (1024:ℤ) - 2 ^ (970:ℤ)) :
    ∃ r s : ℚ,
      NearestDouble (((r1 * 10 ^ d1 : ℕ) : ℝ) / ((r0 * 10 ^ d0 : ℕ) : ℝ)) r ∧
      NearestDouble (Real.sqrt (r : ℝ)) s ∧
      calculate_sqrt_price r0 r1 d0 d1 = .ok ⌊s * 2 ^ (96:ℕ)⌋ := by
  have hb : 0 < r0 * 10 ^ d0 := by positivity
  have hg : ¬ 1 <<< (1024 - (roundFloat (r1 * 10 ^ d1) (r0 * 10 ^ d0)).2).toNat ≤
      (roundFloat (r1 * 10 ^ d1) (r0 * 10 ^ d0)).1 := by
    rw [overflow_iff hb]
    push_neg
    exact hnof
  refine ⟨fval (roundFloat (r1 * 10 ^ d1) (r0 * 10 ^ d0)),
    fval (fsqrt (roundFloat (r1 * 10 ^ d1) (r0 * 10 ^ d0))), ?_, ?_, ?_⟩
  · exact roundFloat_nearest hb hg
  · obtain ⟨hm, he1, he2⟩ := roundFloat_shape hb hg
    rcases hpr : roundFloat (r1 * 10 ^ d1) (r0 * 10 ^ d0) with ⟨n, t⟩
    rw [hpr] at hm he1 he2
    by_cases hn0 : n = 0
    · subst hn0
      have h1 : fval ((0:ℕ), t) = 0 := by
        rw [fval_pair]
        norm_num
      have h2 : fsqrt ((0:ℕ), t) = (0, 0) := by
        simp [fsqrt]
      rw [h1, h2]
      have h3 : fval ((0:ℕ), (0:ℤ)) = 0 := by
        rw [fval_pair]
        norm_num
      rw [h3, Rat.cast_zero, Real.sqrt_zero]
      exact nearestDouble_zero
    · have hn1 : 1 ≤ n := by omega
      have h := fsqrt_nearest hn1 hm he1 he2
      rw [show ((fval (n, t) : ℚ) : ℝ) = (n:ℝ) * 2 ^ t from fval_castR n t]
      exact h
  · have hz : ¬ (r0 * 10 ^ d0 = 0) := by omega
    show (if r0 * 10 ^ d0 = 0 then PyResult.zeroDivisionError else _) = _
    rw [if_neg hz, if_neg hg]
    show PyResult.ok
      (floorX96 (fsqrt (roundFloat (r1 * 10 ^ d1) (r0 * 10 ^ d0)))) = _
    rw [floorX96_eq]

end FloatShape

/-- Exact reference value: `⌊√(a/b) * 2^96⌋` over the reals equals the
integer square root of `a * 2^192 / b`. -/
theorem floor_sqrt_ratio (a b : ℕ) (hb : 0 < b) :
    ⌊Real.sqrt ((a:ℝ) / (b:ℝ)) * 2 ^ (96:ℕ)⌋ =
      (Nat.sqrt (a * 2 ^ 192 / b) : ℤ) := by
  have hbR : (0:ℝ) < (b:ℝ) := by exact_mod_cast hb
  set s := Nat.sqrt (a * 2 ^ 192 / b) with hs
  have hsl : s * s ≤ a * 2 ^ 192 / b := Nat.sqrt_le _
  have hsu : a * 2 ^ 192 / b < (s + 1) * (s + 1) := Nat.lt_succ_sqrt _
  have hNu : a * 2 ^ 192 < (s + 1) * (s + 1) * b :=
    (Nat.div_lt_iff_lt_mul hb).mp hsu
  have hkey : Real.sqrt ((a:ℝ) / (b:ℝ)) * 2 ^ (96:ℕ) =
      Real.sqrt (((a * 2 ^ 192 : ℕ) : ℝ) / (b:ℝ)) := by
    have h1 : ((a * 2 ^ 192 : ℕ) : ℝ) / (b:ℝ) =
        ((a:ℝ) / (b:ℝ)) * ((2:ℝ) ^ (96:ℕ)) ^ 2 := by
      have h2 : ((a * 2 ^ 192 : ℕ) : ℝ) = (a:ℝ) * ((2:ℝ) ^ (96:ℕ)) ^ 2 := by
        push_cast
        ring
      rw [h2]
      ring
    rw [h1, Real.sqrt_mul (by positivity), Real.sqrt_sq (by positivity)]
  rw [hkey, Int.floor_eq_iff]
  constructor
  · have hgoal : ((s:ℝ)) ^ 2 ≤ ((a * 2 ^ 192 : ℕ) : ℝ) / (b:ℝ) := by
      have h3 : ((s * s : ℕ) : ℝ) ≤ (((a * 2 ^ 192) / b : ℕ) : ℝ) :=
        Nat.cast_le.mpr hsl
      have h4 : (((a * 2 ^ 192) / b : ℕ) : ℝ) ≤ ((a * 2 ^ 192 : ℕ) : ℝ) / (b:ℝ) :=
        Nat.cast_div_le
      have h5 : ((s:ℝ)) ^ 2 = ((s * s : ℕ) : ℝ) := by push_cast; ring
      rw [h5]
      exact le_trans h3 h4
    rw [Real.le_sqrt (by positivity) (by positivity)]
    exact_mod_cast hgoal
  · have h2 : ((a * 2 ^ 192 : ℕ) : ℝ) / (b:ℝ) < ((s:ℝ) + 1) ^ 2 := by
      rw [div_lt_iff₀ hbR]
      have h3 : ((a * 2 ^ 192 : ℕ) : ℝ) < (((s + 1) * (s + 1) * b : ℕ) : ℝ) :=
        Nat.cast_lt.mpr hNu
      have h5 : (((s + 1) * (s + 1) * b : ℕ) : ℝ) = ((s:ℝ) + 1) ^ 2 * (b:ℝ) := by
        push_cast
        ring
      rw [h5] at h3
      exact h3
    have h4 := Real.sqrt_lt_sqrt (by positivity) h2
    rw [Real.sqrt_sq (by positivity)] at h4
    exact_mod_cast h4

/-- The returned integer is a cast from `ℕ`, hence nonnegative. -/
theorem floorX96_nonneg (s : ℕ × ℤ) : 0 ≤ floorX96 s := by
  unfold floorX96
  split_ifs
  · exact Int.natCast_nonneg _
  · exact Int.natCast_nonneg _

/-! ## Scaling invariance of the rounded division

A common factor of the numerator and denominator cancels exactly through
every stage of the correctly rounded division: the quotient, the
remainder comparisons, the binary exponent, and the final rounding are
all unchanged. -/

theorem rnDiv_mul (A B m : ℕ) (hm : 0 < m) : rnDiv (A * m) (B * m) = rnDiv A B := by
  unfold rnDiv
  have hq : A * m / (B * m) = A / B := by
    rw [Nat.mul_div_mul_right A B hm]
  have hr : A * m % (B * m) = A % B * m := Nat.mul_mod_mul_right m A B
  have e1 : 2 * (A % B * m) = 2 * (A % B) * m := by ring
  simp only [hq, hr, e1, mul_lt_mul_right hm]

theorem ratLexp2_mul (a b m : ℕ) (hm : 0 < m) :
    ratLexp2 (a * m) (b * m) = ratLexp2 a b := by
  funext e
  unfold ratLexp2
  by_cases he : 0 ≤ e
  · rw [if_pos he, if_pos he]
    refine decide_eq_decide.mpr ?_
    rw [Nat.shiftLeft_eq, Nat.shiftLeft_eq]
    have e1 : b * m * 2 ^ e.toNat = b * 2 ^ e.toNat * m := by ring
    rw [e1]
    exact mul_le_mul_right hm
  · rw [if_neg he, if_neg he]
    refine decide_eq_decide.mpr ?_
    rw [Nat.shiftLeft_eq, Nat.shiftLeft_eq]
    have e1 : a * m * 2 ^ (-e).toNat = a * 2 ^ (-e).toNat * m := by ring
    rw [e1]
    exact mul_le_mul_right hm

theorem fexp_mul (a b m : ℕ) (hm : 0 < m) : fexp (a * m) (b * m) = fexp a b := by
  unfold fexp
  rw [ratLexp2_mul a b m hm]

theorem rnAtScale_mul (a b m : ℕ) (hm : 0 < m) (t : ℤ) :
    rnAtScale (a * m) (b * m) t = rnAtScale a b t := by
  unfold rnAtScale
  by_cases ht : 0 ≤ t
  · rw [if_pos ht, if_pos ht]
    have e1 : (b * m) <<< t.toNat = b <<< t.toNat * m := by
      rw [Nat.shiftLeft_eq, Nat.shiftLeft_eq]
      ring
    rw [e1]
    exact rnDiv_mul a _ m hm
  · rw [if_neg ht, if_neg ht]
    have e1 : (a * m) <<< (-t).toNat = a <<< (-t).toNat * m := by
      rw [Nat.shiftLeft_eq, Nat.shiftLeft_eq]
      ring
    rw [e1]
    exact rnDiv_mul _ b m hm

theorem roundFloat_mul (a b m : ℕ) (hm : 0 < m) :
    roundFloat (a * m) (b * m) = roundFloat a b := by
  unfold roundFloat
  by_cases ha : a = 0
  · rw [ha]
    simp
  · rw [if_neg (by positivity : ¬(a * m = 0)), if_neg ha]
    simp only [fexp_mul a b m hm, rnAtScale_mul a b m hm]

/-! ## The claims -/

set_option maxRecDepth 10000 in
/-- C1 (counterexample): at `reserve0 = 1`, `reserve1 = 2`, both decimals
`0`, the function does not return the exact
`⌊√((reserve1·10^d1)/(reserve0·10^d0))·2^96⌋` over the reals: the
double-precision pipeline returns
`112045541949572287496682733568`, while the exact value is
`⌊√2·2^96⌋ = 112045541949572279837463876454`. -/
theorem C1_exact_real_counterexample :
    calculate_sqrt_price 1 2 0 0 ≠
      .ok ⌊Real.sqrt (((2 * 10 ^ 0 : ℕ) : ℝ) / ((1 * 10 ^ 0 : ℕ) : ℝ)) *
        2 ^ (96:ℕ)⌋ := by
  have h1 : ((2 * 10 ^ 0 : ℕ) : ℝ) / ((1 * 10 ^ 0 : ℕ) : ℝ) =
      ((2:ℕ) : ℝ) / ((1:ℕ) : ℝ) := by norm_num
  rw [h1, floor_sqrt_ratio 2 1 (by norm_num)]
  have h2 : (2 * 2 ^ 192 / 1 : ℕ) =
      12554203470773361527671578846415332832204710888928069025792 := by
    norm_num
  rw [h2]
  have h3 : Nat.sqrt 12554203470773361527671578846415332832204710888928069025792 =
      112045541949572279837463876454 := by norm_num
  rw [h3]
  decide

/-- C1 (amended): for every input with `reserve0 > 0` whose exact amount
ratio stays below the overflow threshold `2^1024 - 2^970`, the function
returns `⌊s·2^96⌋` where `s` is the correctly rounded double square root
of the correctly rounded double quotient of the amounts (Policy A of the
specification), rather than the exact real-number value. -/
theorem C1_policyA (r0 r1 d0 d1 : ℕ) (h0 : 0 < r0)
    (hnof : ((r1 * 10 ^ d1 : ℕ) : ℚ) / ((r0 * 10 ^ d0 : ℕ) : ℚ) <
      2 ^ (1024:ℤ) - 2 ^ (970:ℤ)) :
    ∃ r s : ℚ,
      NearestDouble (((r1 * 10 ^ d1 : ℕ) : ℝ) / ((r0 * 10 ^ d0 : ℕ) : ℝ)) r ∧
      NearestDouble (Real.sqrt (r : ℝ)) s ∧
      calculate_sqrt_price r0 r1 d0 d1 = .ok ⌊s * 2 ^ (96:ℕ)⌋ :=
  calculate_sqrt_price_policyA r0 r1 d0 d1 h0 hnof

/-- C1 (witness): the amended statement instantiated at
`reserve0 = 1, reserve1 = 2`, both decimals `0`. -/
theorem C1_policyA_witness :
    ∃ r s : ℚ,
      NearestDouble (((2 * 10 ^ 0 : ℕ) : ℝ) / ((1 * 10 ^ 0 : ℕ) : ℝ)) r ∧
      NearestDouble (Real.sqrt (r : ℝ)) s ∧
      calculate_sqrt_price 1 2 0 0 = .ok ⌊s * 2 ^ (96:ℕ)⌋ :=
  C1_policyA 1 2 0 0 (by norm_num) (by
    have h1 : ((2 * 10 ^ 0 : ℕ) : ℚ) / ((1 * 10 ^ 0 : ℕ) : ℚ) = 2 := by norm_num
    rw [h1]
    have h2 := two_zpow_strict (show (1:ℤ) < 1023 by norm_num)
    have h3 := two_zpow_strict (show (970:ℤ) < 1023 by norm_num)
    have h4 : (2:ℚ) ^ (1024:ℤ) = 2 ^ (1023:ℤ) * 2 := by
      rw [show (1024:ℤ) = 1023 + 1 by norm_num, two_zpow_add]
      norm_num
    have h5 : (2:ℚ) ^ (1:ℤ) = 2 := by norm_num
    linarith)

set_option maxRecDepth 10000 in
/-- C2 (counterexample): with `reserve0 = 1 > 0` and a huge `reserve1`
(`2^1100`), the function does not return normally: CPython raises
`OverflowError` when converting the quotient to a double, so "error iff
`reserve0 == 0`, and only division-by-zero" fails. -/
theorem C2_overflow_counterexample :
    calculate_sqrt_price 1
      13582985290493858492773514283592667786034938469317445497485196697278130927542418487205392083207560592298578262953847383475038725543234929971155548342800628721885763499406390331782864144164680730766837160526223176512798435772129956553355286032203080380775759732320198985094884004069116123084147875437183658467465148948790552744165376
      0 0 = .overflowError := by
  decide

/-- C2 (amended): the function fails with `ZeroDivisionError` exactly when
`reserve0 = 0`; it fails with `OverflowError` exactly when `reserve0 > 0`
and the exact amount ratio is at least `2^1024 - 2^970` (the rounded
quotient would leave the double range); and it returns normally exactly
when `reserve0 > 0` and the ratio is below that threshold. -/
theorem C2_error_characterization (r0 r1 d0 d1 : ℕ) :
    (calculate_sqrt_price r0 r1 d0 d1 = .zeroDivisionError ↔ r0 = 0) ∧
    (calculate_sqrt_price r0 r1 d0 d1 = .overflowError ↔
      0 < r0 ∧ (2:ℚ) ^ (1024:ℤ) - 2 ^ (970:ℤ) ≤
        ((r1 * 10 ^ d1 : ℕ) : ℚ) / ((r0 * 10 ^ d0 : ℕ) : ℚ)) ∧
    ((∃ v, calculate_sqrt_price r0 r1 d0 d1 = .ok v) ↔
      0 < r0 ∧ ((r1 * 10 ^ d1 : ℕ) : ℚ) / ((r0 * 10 ^ d0 : ℕ) : ℚ) <
        (2:ℚ) ^ (1024:ℤ) - 2 ^ (970:ℤ)) := by
  by_cases h0 : r0 = 0
  · subst h0
    have hz : (0 * 10 ^ d0 : ℕ) = 0 := by ring
    have hc : calculate_sqrt_price 0 r1 d0 d1 = .zeroDivisionError := by
      simp only [calculate_sqrt_price]
      rw [if_pos hz]
    rw [hc]
    refine ⟨by simp, by simp, by simp⟩
  · have hpos : 0 < r0 := Nat.pos_of_ne_zero h0
    have hb : 0 < r0 * 10 ^ d0 := by positivity
    have ha : ¬ (r0 * 10 ^ d0 = 0) := by omega
    simp only [calculate_sqrt_price]
    rw [if_neg ha]
    by_cases hg : 1 <<< (1024 - (roundFloat (r1 * 10 ^ d1) (r0 * 10 ^ d0)).2).toNat ≤
        (roundFloat (r1 * 10 ^ d1) (r0 * 10 ^ d0)).1
    · rw [if_pos hg]
      refine ⟨iff_of_false (by simp) h0,
        iff_of_true rfl ⟨hpos, (overflow_iff hb).mp hg⟩,
        iff_of_false (by simp) ?_⟩
      rintro ⟨-, hlt⟩
      have := (overflow_iff hb).mp hg
      linarith
    · rw [if_neg hg]
      refine ⟨iff_of_false (by simp) h0,
        iff_of_false (by simp) ?_,
        iff_of_true ⟨_, rfl⟩ ⟨hpos, lt_of_not_le fun hge => hg ((overflow_iff hb).mpr hge)⟩⟩
      rintro ⟨-, hge⟩
      exact hg ((overflow_iff hb).mpr hge)

set_option maxRecDepth 10000 in
/-- C3 (counterexample): multiplying `reserve0` by `10` while increasing
`decimals0` by `1` does change the result, because the code multiplies the
reserve by `10^decimals` instead of dividing: the amount gains a factor
`100`, not `1`. -/
theorem C3_scaling_counterexample :
    calculate_sqrt_price (1 * 10 ^ 1) 1 (0 + 1) 0 ≠
      calculate_sqrt_price 1 1 0 0 := by
  decide

/-- C3 (amended): the result depends on a reserve and its decimals only
through the product `reserve·10^decimals`, so multiplying `reserve0` by
`10^k` is the same as increasing `decimals0` by `k` (not a no-op when both
are done together), and likewise on the `reserve1` side. -/
theorem C3_decimals_shift (r0 r1 d0 d1 k : ℕ) :
    calculate_sqrt_price (r0 * 10 ^ k) r1 d0 d1 =
      calculate_sqrt_price r0 r1 (d0 + k) d1 ∧
    calculate_sqrt_price r0 (r1 * 10 ^ k) d0 d1 =
      calculate_sqrt_price r0 r1 d0 (d1 + k) := by
  constructor
  · unfold calculate_sqrt_price
    rw [show r0 * 10 ^ k * 10 ^ d0 = r0 * 10 ^ (d0 + k) by
      rw [pow_add]; ring]
  · unfold calculate_sqrt_price
    rw [show r1 * 10 ^ k * 10 ^ d1 = r1 * 10 ^ (d1 + k) by
      rw [pow_add]; ring]

set_option maxRecDepth 10000 in
/-- C4 (counterexample): for `reserve0 = 6300000, decimals0 = 6,
reserve1 = 473600000000000000000, decimals1 = 18` the function does not
return `⌊√(4736/63)·2^96⌋` (the value promised by the spec's gloss
"amount0 = 6.3, amount1 = 473.6, ratio ≈ 75.1746"): the code multiplies
by the decimal factors, so the actual ratio is `(4736/63)·10^24`. -/
theorem C4_scenario2_counterexample :
    calculate_sqrt_price 6300000 473600000000000000000 6 18 ≠
      .ok ⌊Real.sqrt (((4736:ℕ) : ℝ) / ((63:ℕ) : ℝ)) * 2 ^ (96:ℕ)⌋ := by
  rw [floor_sqrt_ratio 4736 63 (by norm_num)]
  have h2 : (4736 * 2 ^ 192 / 63 : ℕ) =
      471878632044306668214703154100182668994615164840978848461515 := by
    norm_num
  rw [h2]
  have h3 : Nat.sqrt 471878632044306668214703154100182668994615164840978848461515 =
      686934226869142594926762539696 := by norm_num
  rw [h3]
  decide

set_option maxRecDepth 10000 in
/-- C4 (amended): on that input the computed amounts are `63·10^11` and
`4736·10^35` (so the ratio is `(4736/63)·10^24`, not `75.1746...`), the
double-precision price ratio is `8751475621783544·2^33`, and the returned
value is `686934226869142597511665699860086475718656`. -/
theorem C4_scenario2 :
    6300000 * 10 ^ 6 = 63 * 10 ^ 11 ∧
    473600000000000000000 * 10 ^ 18 = 4736 * 10 ^ 35 ∧
    roundFloat (473600000000000000000 * 10 ^ 18) (6300000 * 10 ^ 6) =
      (8751475621783544, 33) ∧
    calculate_sqrt_price 6300000 473600000000000000000 6 18 =
      .ok 686934226869142597511665699860086475718656 := by
  refine ⟨by norm_num, by norm_num, by decide, by decide⟩

/-- C5 (confirmed): with `reserve0 > 0` and `reserve1 = 0` the quotient is
exactly `0.0`, its square root is `0.0`, and the function returns `0`. -/
theorem C5_zero_reserve1 (r0 d0 d1 : ℕ) (h0 : 0 < r0) :
    calculate_sqrt_price r0 0 d0 d1 = .ok 0 := by
  have ha : ¬ (r0 * 10 ^ d0 = 0) := by positivity
  have h1 : (0 * 10 ^ d1 : ℕ) = 0 := by ring
  show (if r0 * 10 ^ d0 = 0 then PyResult.zeroDivisionError
    else if 1 <<< (1024 - (roundFloat (0 * 10 ^ d1) (r0 * 10 ^ d0)).2).toNat ≤
        (roundFloat (0 * 10 ^ d1) (r0 * 10 ^ d0)).1 then PyResult.overflowError
    else PyResult.ok (floorX96 (fsqrt (roundFloat (0 * 10 ^ d1) (r0 * 10 ^ d0))))) =
    PyResult.ok 0
  rw [if_neg ha, h1]
  have h2 : roundFloat 0 (r0 * 10 ^ d0) = (0, 0) := by simp [roundFloat]
  rw [h2]
  decide

/-- C5 (witness): the statement at `reserve0 = 7, decimals = (2, 5)`. -/
theorem C5_zero_reserve1_witness : calculate_sqrt_price 7 0 2 5 = .ok 0 :=
  C5_zero_reserve1 7 2 5 (by norm_num)

set_option maxRecDepth 10000 in
/-- C6 (confirmed): with equal positive reserves and equal decimals the
two amounts coincide, the quotient rounds to exactly `1.0`, whose square
root is `1.0`, and the function returns `2^96`. -/
theorem C6_identity_ratio (r d : ℕ) (hr : 0 < r) :
    calculate_sqrt_price r r d d = .ok (2 ^ 96) := by
  have ha : ¬ (r * 10 ^ d = 0) := by positivity
  show (if r * 10 ^ d = 0 then PyResult.zeroDivisionError
    else if 1 <<< (1024 - (roundFloat (r * 10 ^ d) (r * 10 ^ d)).2).toNat ≤
        (roundFloat (r * 10 ^ d) (r * 10 ^ d)).1 then PyResult.overflowError
    else PyResult.ok (floorX96 (fsqrt (roundFloat (r * 10 ^ d) (r * 10 ^ d))))) =
    PyResult.ok (2 ^ 96)
  rw [if_neg ha]
  have h1 : roundFloat (r * 10 ^ d) (r * 10 ^ d) = roundFloat 1 1 := by
    have h2 := roundFloat_mul 1 1 (r * 10 ^ d) (by positivity)
    rw [one_mul] at h2
    exact h2
  rw [h1]
  decide

set_option maxRecDepth 10000 in
/-- C6 (witness): the statement at `reserve0 = reserve1 = 5`,
`decimals0 = decimals1 = 3`. -/
theorem C6_identity_ratio_witness : calculate_sqrt_price 5 5 3 3 = .ok (2 ^ 96) :=
  C6_identity_ratio 5 3 (by norm_num)

set_option maxRecDepth 10000 in
/-- C7 (counterexample): for `reserve0 = 10^18`,
`reserve1 = 1.7·10^21`, both decimals `18`, the function does not return
`⌊√1700·2^96⌋ = 3266660825699135434887405499641`: the double square root
of `1700.0` is slightly above `√1700`, so the returned value is larger. -/
theorem C7_scenario1_counterexample :
    calculate_sqrt_price 1000000000000000000 1700000000000000000000 18 18 ≠
      .ok ⌊Real.sqrt (1700:ℝ) * 2 ^ (96:ℕ)⌋ := by
  have h1 : (1700:ℝ) = ((1700:ℕ) : ℝ) / ((1:ℕ) : ℝ) := by norm_num
  rw [h1, floor_sqrt_ratio 1700 1 (by norm_num)]
  have h2 : (1700 * 2 ^ 192 / 1 : ℕ) =
      10671072950157357298520842019453032907374004255588858671923200 := by
    norm_num
  rw [h2]
  have h3 : Nat.sqrt 10671072950157357298520842019453032907374004255588858671923200 =
      3266660825699135434887405499641 := by norm_num
  rw [h3]
  decide

set_option maxRecDepth 10000 in
/-- C7 (amended): on that input the double-precision price ratio is
`7476679068876800·2^(-42)`, which is exactly `1700` (that part of the
claim holds), but the returned value is the Policy-A result
`3266660825699135604008626946048`, one double-rounding above
`⌊√1700·2^96⌋`. -/
theorem C7_scenario1 :
    roundFloat (1700000000000000000000 * 10 ^ 18) (1000000000000000000 * 10 ^ 18) =
      (7476679068876800, -42) ∧
    fval (7476679068876800, -42) = 1700 ∧
    calculate_sqrt_price 1000000000000000000 1700000000000000000000 18 18 =
      .ok 3266660825699135604008626946048 := by
  refine ⟨by decide, ?_, by decide⟩
  rw [fval_pair]
  rw [show ((-42):ℤ) = -((42:ℕ):ℤ) by norm_num, zpow_neg, zpow_natCast]
  rw [mul_inv_eq_iff_eq_mul₀ (by positivity)]
  norm_num

/-- C8 (confirmed): whenever the function returns a value, that value is
the cast of a natural number, hence nonnegative. -/
theorem C8_nonneg (r0 r1 d0 d1 : ℕ) (h0 : 0 < r0) (v : ℤ)
    (hv : calculate_sqrt_price r0 r1 d0 d1 = .ok v) : 0 ≤ v := by
  have ha : ¬ (r0 * 10 ^ d0 = 0) := by positivity
  simp only [calculate_sqrt_price] at hv
  rw [if_neg ha] at hv
  split at hv
  · simp at hv
  · rw [PyResult.ok.injEq] at hv
    rw [← hv]
    exact floorX96_nonneg _

set_option maxRecDepth 10000 in
/-- C8 (witness): the statement at `reserve0 = reserve1 = 1`, decimals
`0`, where the returned value is `2^96`. -/
theorem C8_nonneg_witness : (0:ℤ) ≤ 79228162514264337593543950336 :=
  C8_nonneg 1 1 0 0 (by norm_num) 79228162514264337593543950336 (by decide)

/-- C9 (confirmed): with equal decimals the common factor `10^d` cancels
exactly through the correctly rounded division, so the result equals the
one with both decimals `0`. -/
theorem C9_equal_decimals (r0 r1 d : ℕ) (h0 : 0 < r0) :
    calculate_sqrt_price r0 r1 d d = calculate_sqrt_price r0 r1 0 0 := by
  have ha : ¬ (r0 * 10 ^ d = 0) := by positivity
  have ha' : ¬ (r0 * 10 ^ 0 = 0) := by positivity
  have h1 : roundFloat (r1 * 10 ^ d) (r0 * 10 ^ d) = roundFloat r1 r0 :=
    roundFloat_mul r1 r0 (10 ^ d) (by positivity)
  have h2 : roundFloat (r1 * 10 ^ 0) (r0 * 10 ^ 0) = roundFloat r1 r0 := by
    rw [pow_zero, mul_one, mul_one]
  show (if r0 * 10 ^ d = 0 then PyResult.zeroDivisionError
    else if 1 <<< (1024 - (roundFloat (r1 * 10 ^ d) (r0 * 10 ^ d)).2).toNat ≤
        (roundFloat (r1 * 10 ^ d) (r0 * 10 ^ d)).1 then PyResult.overflowError
    else PyResult.ok (floorX96 (fsqrt (roundFloat (r1 * 10 ^ d) (r0 * 10 ^ d))))) =
    (if r0 * 10 ^ 0 = 0 then PyResult.zeroDivisionError
    else if 1 <<< (1024 - (roundFloat (r1 * 10 ^ 0) (r0 * 10 ^ 0)).2).toNat ≤
        (roundFloat (r1 * 10 ^ 0) (r0 * 10 ^ 0)).1 then PyResult.overflowError
    else PyResult.ok (floorX96 (fsqrt (roundFloat (r1 * 10 ^ 0) (r0 * 10 ^ 0)))))
  rw [if_neg ha, if_neg ha', h1, h2]

/-- C9 (witness): the statement at `reserve0 = 2, reserve1 = 3, d = 5`. -/
theorem C9_equal_decimals_witness :
    calculate_sqrt_price 2 3 5 5 = calculate_sqrt_price 2 3 0 0 :=
  C9_equal_decimals 2 3 5 (by norm_num)

set_option maxRecDepth 10000 in
/-- C10 (confirmed): there is an input with both reserves positive on
which the function returns `0`: with `reserve0 = 2^1100`, `reserve1 = 1`
and decimals `0` the quotient is below the smallest positive double, the
division underflows to `0.0`, and the result is `0` despite a strictly
positive mathematical price. -/
theorem C10_positive_reserves_zero :
    ∃ r0 r1 d0 d1 : ℕ, 0 < r0 ∧ 0 < r1 ∧
      calculate_sqrt_price r0 r1 d0 d1 = .ok 0 :=
  ⟨13582985290493858492773514283592667786034938469317445497485196697278130927542418487205392083207560592298578262953847383475038725543234929971155548342800628721885763499406390331782864144164680730766837160526223176512798435772129956553355286032203080380775759732320198985094884004069116123084147875437183658467465148948790552744165376,
    1, 0, 0, by norm_num, by norm_num, by decide⟩
